import Mathlib

/-!
Verification of the VoicePage core against its specification.

This file gives a shallow embedding, in Lean 4, of the parts of the
VoicePage repository that the checked claims are about:

* the label normalizer (`packages/voicepage-core/src/normalize.ts`),
* the matcher / resolver (`matcher.ts`),
* the event bus (`event-bus.ts`),
* the keyword-spotting cooldown logic (`engines/oww-kws-engine.ts`),
* the engine state machine (`engine.ts`), modeled as an explicit
  transition system whose inputs are the public API calls and the
  callbacks of the audio/VAD/ASR collaborators, with the moments where
  the TypeScript code awaits a promise modeled as explicit suspended
  continuations.

Numbers: TypeScript numbers that hold match scores and configuration
thresholds are modeled as rationals (`Rat`); timestamps in milliseconds
are modeled as integers.  Wall-clock event timestamps (`ts` fields,
`Date.now()`) are not modeled: no checked claim depends on them.
-/

namespace VoicePage

/-! ## Label normalizer (`normalize.ts`)

The source is
`export function normalizeLabel(raw) { return raw.toLowerCase().trim().replace(/\s+/g, ' '); }`.

`toLowerCase` is modeled by the simple ASCII case map (`lowerChar`),
`trim` by dropping JavaScript whitespace from both ends, and
`replace(/\s+/g, ' ')` by a left-to-right scan that replaces every
maximal whitespace run with a single space (`collapseWsAux`).
-/

/-- Characters matched by the JavaScript regular-expression class `\s`
(this is also the set trimmed by `String.prototype.trim`). -/
def isJsWhitespace (c : Char) : Bool :=
  decide (c.toNat = 9 ∨ c.toNat = 10 ∨ c.toNat = 11 ∨ c.toNat = 12 ∨ c.toNat = 13 ∨
    c.toNat = 32 ∨ c.toNat = 160 ∨ c.toNat = 5760 ∨
    (8192 ≤ c.toNat ∧ c.toNat ≤ 8202) ∨ c.toNat = 8232 ∨ c.toNat = 8233 ∨
    c.toNat = 8239 ∨ c.toNat = 8287 ∨ c.toNat = 12288 ∨ c.toNat = 65279)

/-- ASCII case map used to model `String.prototype.toLowerCase`.  The
labels and transcripts the system handles are English (the spec is
explicit that v1 does no Unicode folding), so the ASCII simple case map
is the faithful model of the conversion on the strings in scope. -/
def lowerChar (c : Char) : Char :=
  if 65 ≤ c.toNat ∧ c.toNat ≤ 90 then Char.ofNat (c.toNat + 32) else c

/-- Model of `String.prototype.trim`: drop JavaScript whitespace from
both ends. -/
def trimChars (l : List Char) : List Char :=
  ((l.dropWhile isJsWhitespace).reverse.dropWhile isJsWhitespace).reverse

/-- Scan implementing `replace(/\s+/g, ' ')`: `prevWs` records whether
the previously read character was whitespace (i.e. whether we are in the
middle of a whitespace run whose single `' '` has already been
emitted). -/
def collapseWsAux : Bool → List Char → List Char
  | _, [] => []
  | prevWs, c :: cs =>
    if isJsWhitespace c then
      if prevWs then collapseWsAux true cs
      else ' ' :: collapseWsAux true cs
    else
      c :: collapseWsAux false cs

/-- Model of `replace(/\s+/g, ' ')`. -/
def collapseWs (l : List Char) : List Char := collapseWsAux false l

/-- Embedding of `normalizeLabel` from `normalize.ts`:
lower-case, then trim, then collapse whitespace runs. -/
def normalizeLabel (raw : String) : String :=
  ⟨collapseWs (trimChars (raw.data.map lowerChar))⟩

/-- Model of `String.prototype.trim` on `String`, used by the engine's
empty-transcript check `!transcript.trim()`. -/
def jsTrim (s : String) : String := ⟨trimChars s.data⟩

/-! Predicates describing an already-normalized string, used to state the
idempotence / no-op claims about `normalizeLabel`. -/

/-- Every character is fixed by the case map (the string is lowercase). -/
def allLower (l : List Char) : Bool := l.all (fun c => lowerChar c = c)

/-- Every whitespace character is a plain space `' '`. -/
def wsOnlySpace (l : List Char) : Bool :=
  l.all (fun c => !isJsWhitespace c || c = ' ')

/-- No two consecutive whitespace characters (no whitespace run of
length two or more). -/
def noWsRun : List Char → Bool
  | c1 :: c2 :: rest => (!(isJsWhitespace c1 && isJsWhitespace c2)) && noWsRun (c2 :: rest)
  | _ => true

/-- The first character, if any, is not whitespace. -/
def headNotWs (l : List Char) : Bool :=
  match l.head? with
  | none => true
  | some c => !isJsWhitespace c

/-- The last character, if any, is not whitespace. -/
def lastNotWs (l : List Char) : Bool :=
  match l.getLast? with
  | none => true
  | some c => !isJsWhitespace c

theorem char_toNat_ofNat_valid (n : Nat) (h : n.isValidChar) : (Char.ofNat n).toNat = n := by
  simp [Char.ofNat, h, Char.toNat, Char.ofNatAux, UInt32.toNat, BitVec.toNat_ofNatLt]

theorem lowerChar_idem (c : Char) : lowerChar (lowerChar c) = lowerChar c := by
  unfold lowerChar
  split
  · next h =>
    have hv : (c.toNat + 32).isValidChar := by
      rcases h with ⟨h1, h2⟩; left; omega
    rw [char_toNat_ofNat_valid _ hv]
    split
    · next h2 => omega
    · rfl
  · rfl

theorem lowerChar_space : lowerChar ' ' = ' ' := by decide


theorem collapseWsAux_nil (b : Bool) : collapseWsAux b [] = [] := rfl

theorem collapseWsAux_cons_ws_true {x : Char} {xs : List Char} (h : isJsWhitespace x = true) :
    collapseWsAux true (x :: xs) = collapseWsAux true xs := by
  simp [collapseWsAux, h]

theorem collapseWsAux_cons_ws_false {x : Char} {xs : List Char} (h : isJsWhitespace x = true) :
    collapseWsAux false (x :: xs) = ' ' :: collapseWsAux true xs := by
  simp [collapseWsAux, h]

theorem collapseWsAux_cons_not (b : Bool) {x : Char} {xs : List Char}
    (h : isJsWhitespace x = false) :
    collapseWsAux b (x :: xs) = x :: collapseWsAux false xs := by
  cases b <;> simp [collapseWsAux, h]

theorem noWsRun_cons_cons {c1 c2 : Char} {r : List Char} :
    noWsRun (c1 :: c2 :: r) = ((!(isJsWhitespace c1 && isJsWhitespace c2)) && noWsRun (c2 :: r)) :=
  rfl

theorem noWsRun_tail {x : Char} {xs : List Char} (h : noWsRun (x :: xs) = true) :
    noWsRun xs = true := by
  cases xs with
  | nil => rfl
  | cons y ys =>
    rw [noWsRun_cons_cons, Bool.and_eq_true] at h
    exact h.2

theorem noWsRun_head_of_ws {x y : Char} {ys : List Char}
    (h : noWsRun (x :: y :: ys) = true) (hx : isJsWhitespace x = true) :
    isJsWhitespace y = false := by
  rw [noWsRun_cons_cons, Bool.and_eq_true] at h
  have h1 := h.1
  rw [Bool.not_eq_true', Bool.and_eq_false_iff] at h1
  rcases h1 with h1 | h1
  · rw [hx] at h1; cases h1
  · exact h1

theorem mem_collapseWsAux {c : Char} : ∀ (b : Bool) (l : List Char),
    c ∈ collapseWsAux b l → c = ' ' ∨ (c ∈ l ∧ isJsWhitespace c = false)
  | _, [], h => by simp [collapseWsAux] at h
  | b, x :: xs, h => by
    by_cases hws : isJsWhitespace x
    · cases b with
      | true =>
        rw [collapseWsAux_cons_ws_true hws] at h
        rcases mem_collapseWsAux true xs h with h1 | ⟨h2, h3⟩
        · exact Or.inl h1
        · exact Or.inr ⟨List.mem_cons_of_mem _ h2, h3⟩
      | false =>
        rw [collapseWsAux_cons_ws_false hws] at h
        rcases List.mem_cons.mp h with rfl | h'
        · exact Or.inl rfl
        · rcases mem_collapseWsAux true xs h' with h1 | ⟨h2, h3⟩
          · exact Or.inl h1
          · exact Or.inr ⟨List.mem_cons_of_mem _ h2, h3⟩
    · rw [collapseWsAux_cons_not b (by simpa using hws)] at h
      rcases List.mem_cons.mp h with rfl | h'
      · exact Or.inr ⟨List.mem_cons_self _ _, by simpa using hws⟩
      · rcases mem_collapseWsAux false xs h' with h1 | ⟨h2, h3⟩
        · exact Or.inl h1
        · exact Or.inr ⟨List.mem_cons_of_mem _ h2, h3⟩

theorem collapseWsAux_ne_nil : ∀ (b : Bool) (l : List Char),
    (∃ c ∈ l, isJsWhitespace c = false) → collapseWsAux b l ≠ []
  | _, [], h => by simp at h
  | b, x :: xs, h => by
    by_cases hws : isJsWhitespace x
    · cases b with
      | true =>
        rw [collapseWsAux_cons_ws_true hws]
        apply collapseWsAux_ne_nil true xs
        rcases h with ⟨c, hc, hcw⟩
        rcases List.mem_cons.mp hc with rfl | h'
        · rw [hws] at hcw; cases hcw
        · exact ⟨c, h', hcw⟩
      | false =>
        rw [collapseWsAux_cons_ws_false hws]
        simp
    · rw [collapseWsAux_cons_not b (by simpa using hws)]
      simp

theorem collapseWsAux_noWsRun : ∀ (b : Bool) (l : List Char),
    noWsRun (collapseWsAux b l) = true ∧
      (b = true → headNotWs (collapseWsAux b l) = true)
  | b, [] => by simp [collapseWsAux_nil, noWsRun, headNotWs]
  | b, x :: xs => by
    by_cases hws : isJsWhitespace x
    · cases b with
      | true =>
        rw [collapseWsAux_cons_ws_true hws]
        exact ⟨(collapseWsAux_noWsRun true xs).1,
          fun _ => (collapseWsAux_noWsRun true xs).2 rfl⟩
      | false =>
        rw [collapseWsAux_cons_ws_false hws]
        refine ⟨?_, by simp⟩
        have h2 := (collapseWsAux_noWsRun true xs).2 rfl
        have h1 := (collapseWsAux_noWsRun true xs).1
        cases hout : collapseWsAux true xs with
        | nil => simp [noWsRun]
        | cons y ys =>
          rw [hout] at h2 h1
          have hy : isJsWhitespace y = false := by
            simpa [headNotWs, List.head?] using h2
          rw [noWsRun_cons_cons, Bool.and_eq_true]
          exact ⟨by simp [hy], h1⟩
    · have hws' : isJsWhitespace x = false := by simpa using hws
      rw [collapseWsAux_cons_not b hws']
      have h1 := (collapseWsAux_noWsRun false xs).1
      refine ⟨?_, fun _ => by simp [headNotWs, hws']⟩
      cases hout : collapseWsAux false xs with
      | nil => simp [noWsRun]
      | cons y ys =>
        rw [hout] at h1
        rw [noWsRun_cons_cons, Bool.and_eq_true]
        exact ⟨by simp [hws'], h1⟩

theorem getLast?_cons_ne {c : Char} {l : List Char} (h : l ≠ []) :
    (c :: l).getLast? = l.getLast? := by
  cases l with
  | nil => cases h rfl
  | cons y ys => simp [List.getLast?_cons_cons]

theorem lastNotWs_cons_ne {c : Char} {l : List Char} (h : l ≠ []) :
    lastNotWs (c :: l) = lastNotWs l := by
  simp [lastNotWs, getLast?_cons_ne h]

theorem collapseWsAux_lastNotWs : ∀ (b : Bool) (l : List Char),
    lastNotWs l = true → lastNotWs (collapseWsAux b l) = true
  | b, [], _ => by simp [collapseWsAux_nil, lastNotWs, List.getLast?]
  | b, [x], h => by
    have hx : isJsWhitespace x = false := by
      simpa [lastNotWs, List.getLast?] using h
    rw [collapseWsAux_cons_not b hx, collapseWsAux_nil]
    simpa [lastNotWs, List.getLast?] using hx
  | b, x :: y :: ys, h => by
    have htail : lastNotWs (y :: ys) = true := by
      rwa [lastNotWs_cons_ne (List.cons_ne_nil y ys)] at h
    by_cases hws : isJsWhitespace x
    · cases b with
      | true =>
        rw [collapseWsAux_cons_ws_true hws]
        exact collapseWsAux_lastNotWs true (y :: ys) htail
      | false =>
        rw [collapseWsAux_cons_ws_false hws]
        have hne : collapseWsAux true (y :: ys) ≠ [] := by
          apply collapseWsAux_ne_nil
          rcases hlast : (y :: ys).getLast? with _ | c
          · simp at hlast
          · have hc : isJsWhitespace c = false := by
              simpa [lastNotWs, hlast] using htail
            exact ⟨c, List.mem_of_mem_getLast? hlast, hc⟩
        rw [lastNotWs_cons_ne hne]
        exact collapseWsAux_lastNotWs true (y :: ys) htail
    · have hws' : isJsWhitespace x = false := by simpa using hws
      rw [collapseWsAux_cons_not b hws']
      cases hout : collapseWsAux false (y :: ys) with
      | nil => simpa [lastNotWs, List.getLast?] using hws'
      | cons z zs =>
        rw [lastNotWs_cons_ne (List.cons_ne_nil z zs), ← hout]
        exact collapseWsAux_lastNotWs false (y :: ys) htail

theorem collapseWs_headNotWs {l : List Char} (h : headNotWs l = true) :
    headNotWs (collapseWs l) = true := by
  cases l with
  | nil => simp [collapseWs, collapseWsAux_nil, headNotWs]
  | cons x xs =>
    have hx : isJsWhitespace x = false := by simpa [headNotWs, List.head?] using h
    rw [collapseWs, collapseWsAux_cons_not false hx]
    simpa [headNotWs, List.head?] using hx

theorem wsOnlySpace_tail {x : Char} {xs : List Char} (h : wsOnlySpace (x :: xs) = true) :
    wsOnlySpace xs = true := by
  rw [wsOnlySpace, List.all_cons, Bool.and_eq_true] at h
  exact h.2

theorem collapseWsAux_fixed : ∀ (b : Bool) (l : List Char),
    wsOnlySpace l = true → noWsRun l = true →
    (b = true → headNotWs l = true) → collapseWsAux b l = l
  | _, [], _, _, _ => rfl
  | b, x :: xs, hws, hrun, hhead => by
    by_cases hx : isJsWhitespace x
    · cases b with
      | true =>
        have : isJsWhitespace x = false := by
          simpa [headNotWs, List.head?] using hhead rfl
        rw [hx] at this; cases this
      | false =>
        have hxsp : x = ' ' := by
          have := (List.all_eq_true.mp hws) x (List.mem_cons_self _ _)
          simpa [hx] using this
        have hxshead : headNotWs xs = true := by
          cases xs with
          | nil => rfl
          | cons y ys =>
            have hy := noWsRun_head_of_ws hrun hx
            simpa [headNotWs, List.head?] using hy
        rw [collapseWsAux_cons_ws_false hx,
          collapseWsAux_fixed true xs (wsOnlySpace_tail hws) (noWsRun_tail hrun)
            (fun _ => hxshead), hxsp]
    · have hx' : isJsWhitespace x = false := by simpa using hx
      rw [collapseWsAux_cons_not b hx',
        collapseWsAux_fixed false xs (wsOnlySpace_tail hws) (noWsRun_tail hrun) (by simp)]

theorem getLast?_dropWhile_ne_nil {p : Char → Bool} : ∀ (l : List Char),
    l.dropWhile p ≠ [] → (l.dropWhile p).getLast? = l.getLast?
  | [], h => by simp at h
  | x :: xs, h => by
    rw [List.dropWhile_cons] at h ⊢
    by_cases hp : p x
    · rw [if_pos hp] at h ⊢
      rw [getLast?_dropWhile_ne_nil xs h]
      have hxs : xs ≠ [] := by
        intro hnil
        rw [hnil] at h
        simp [List.dropWhile] at h
      exact (getLast?_cons_ne hxs).symm
    · rw [if_neg hp]

theorem headNotWs_trimChars (l : List Char) : headNotWs (trimChars l) = true := by
  unfold trimChars headNotWs
  set dw1 := l.dropWhile isJsWhitespace with hdw1
  set dw2 := dw1.reverse.dropWhile isJsWhitespace with hdw2
  rw [List.head?_reverse]
  cases hne : dw2.getLast? with
  | none => rfl
  | some c =>
    have hdne : dw2 ≠ [] := by
      intro hnil
      rw [hnil] at hne
      simp at hne
    rw [getLast?_dropWhile_ne_nil dw1.reverse hdne, List.getLast?_reverse] at hne
    have := List.head?_dropWhile_not isJsWhitespace l
    rw [← hdw1, hne] at this
    simp [this]

theorem lastNotWs_trimChars (l : List Char) : lastNotWs (trimChars l) = true := by
  unfold trimChars lastNotWs
  rw [List.getLast?_reverse]
  cases hne : ((l.dropWhile isJsWhitespace).reverse.dropWhile isJsWhitespace).head? with
  | none => rfl
  | some c =>
    have := List.head?_dropWhile_not isJsWhitespace (l.dropWhile isJsWhitespace).reverse
    rw [hne] at this
    simp [this]

theorem mem_trimChars {c : Char} {l : List Char} (h : c ∈ trimChars l) : c ∈ l := by
  unfold trimChars at h
  rw [List.mem_reverse] at h
  have h1 := (List.dropWhile_sublist isJsWhitespace).mem h
  rw [List.mem_reverse] at h1
  exact (List.dropWhile_sublist isJsWhitespace).mem h1

theorem dropWhile_headNot {p : Char → Bool} {l : List Char}
    (h : ∀ c ∈ l.head?, p c = false) : l.dropWhile p = l := by
  cases l with
  | nil => rfl
  | cons x xs =>
    rw [List.dropWhile_cons, if_neg]
    simp only [List.head?] at h
    simp [h x rfl]

theorem trimChars_fixed {l : List Char} (h1 : headNotWs l = true) (h2 : lastNotWs l = true) :
    trimChars l = l := by
  unfold trimChars
  have e1 : l.dropWhile isJsWhitespace = l := by
    apply dropWhile_headNot
    intro c hc
    unfold headNotWs at h1
    rw [hc] at h1
    simpa using h1
  have e2 : l.reverse.dropWhile isJsWhitespace = l.reverse := by
    apply dropWhile_headNot
    intro c hc
    rw [List.head?_reverse] at hc
    unfold lastNotWs at h2
    rw [hc] at h2
    simpa using h2
  rw [e1, e2, List.reverse_reverse]

/-- Normal form of `normalizeLabel` output, as a conjunction of the
decidable predicates above. -/
theorem normalizeLabel_normed (s : String) :
    allLower (normalizeLabel s).data = true ∧
    wsOnlySpace (normalizeLabel s).data = true ∧
    noWsRun (normalizeLabel s).data = true ∧
    headNotWs (normalizeLabel s).data = true ∧
    lastNotWs (normalizeLabel s).data = true := by
  show allLower (collapseWs (trimChars (s.data.map lowerChar))) = true ∧ _
  set inner := trimChars (s.data.map lowerChar) with hinner
  refine ⟨?_, ?_, ?_, ?_, ?_⟩
  · apply List.all_eq_true.mpr
    intro c hc
    rcases mem_collapseWsAux false inner hc with rfl | ⟨hmem, _⟩
    · simp [lowerChar_space]
    · have : c ∈ s.data.map lowerChar := mem_trimChars hmem
      rcases List.mem_map.mp this with ⟨a, _, rfl⟩
      simp [lowerChar_idem]
  · apply List.all_eq_true.mpr
    intro c hc
    rcases mem_collapseWsAux false inner hc with rfl | ⟨_, hnws⟩
    · simp
    · simp [hnws]
  · exact (collapseWsAux_noWsRun false inner).1
  · exact collapseWs_headNotWs (headNotWs_trimChars _)
  · exact collapseWsAux_lastNotWs false inner (lastNotWs_trimChars _)

/-- A string satisfying the normal-form predicates is a fixed point of
`normalizeLabel`. -/
theorem normalizeLabel_fixed {s : String}
    (h1 : allLower s.data = true) (h2 : wsOnlySpace s.data = true)
    (h3 : noWsRun s.data = true) (h4 : headNotWs s.data = true)
    (h5 : lastNotWs s.data = true) : normalizeLabel s = s := by
  unfold normalizeLabel
  have hmap : s.data.map lowerChar = s.data := by
    have := List.map_congr_left (l := s.data) (f := lowerChar) (g := id)
      (fun c hc => by simpa using (List.all_eq_true.mp h1) c hc)
    simpa using this
  rw [hmap, trimChars_fixed h4 h5]
  rw [collapseWs, collapseWsAux_fixed false s.data h2 h3 (by simp)]

theorem normalizeLabel_idem_raw (s : String) :
    normalizeLabel (normalizeLabel s) = normalizeLabel s := by
  obtain ⟨h1, h2, h3, h4, h5⟩ := normalizeLabel_normed s
  exact normalizeLabel_fixed h1 h2 h3 h4 h5

/-- Counterexample to claim C8 as stated: the string "a\tb" is lowercase,
has no leading/trailing whitespace and no whitespace run of length two
or more, yet `normalizeLabel` changes it (the single tab is rewritten to
a space by `replace(/\s+/g, ' ')`, which rewrites every maximal
whitespace run, including runs of length one). -/
theorem normalizeLabel_noop_counterexample :
    allLower "a\tb".data = true ∧ headNotWs "a\tb".data = true ∧
    lastNotWs "a\tb".data = true ∧ noWsRun "a\tb".data = true ∧
    normalizeLabel "a\tb" ≠ "a\tb" := by decide

/-- Claim C8 (amended): `normalizeLabel` is idempotent, and a string
that is already lowercase, has no leading or trailing whitespace, no two
consecutive whitespace characters, and whose every whitespace character
is a plain space, is left unchanged. -/
theorem normalizeLabel_idempotent_and_noop :
    (∀ s : String, normalizeLabel (normalizeLabel s) = normalizeLabel s) ∧
    (∀ s : String, allLower s.data = true → wsOnlySpace s.data = true →
      noWsRun s.data = true → headNotWs s.data = true → lastNotWs s.data = true →
      normalizeLabel s = s) :=
  ⟨normalizeLabel_idem_raw, fun _ h1 h2 h3 h4 h5 => normalizeLabel_fixed h1 h2 h3 h4 h5⟩

/-- Witness for C8: the amended theorem applied at a concrete string. -/
theorem normalizeLabel_idempotent_and_noop_witness :
    normalizeLabel "save & close" = "save & close" :=
  normalizeLabel_idempotent_and_noop.2 "save & close" (by decide) (by decide) (by decide)
    (by decide) (by decide)

/-! ## Data model (`types.ts`) -/

/-- The `risk` marker of a target (`'high'` or absent, the absent case
being `none` of the surrounding `Option`). -/
inductive Risk where
  | high
deriving DecidableEq

/-- The opaque DOM element handle, modeled by the two attributes the
core reads from it (`tagName` and the `role` attribute, used by
`determineAction` in `action-executor.ts`). -/
structure DomElement where
  tagName : String
  role : Option String
deriving DecidableEq

/-- Embedding of the `DomTarget` interface from `types.ts`. -/
structure DomTarget where
  id : String
  element : DomElement
  rawLabel : String
  normalizedLabel : String
  synonyms : List String
  risk : Option Risk
deriving DecidableEq

inductive CollisionPolicy where
  | disambiguate
  | error
deriving DecidableEq

/-- Embedding of the `VoicePageConfig` interface from `types.ts`. -/
structure VoicePageConfig where
  collisionPolicy : CollisionPolicy
  fuzzyThreshold : Rat
  fuzzyMargin : Rat
  kwsThreshold : Rat
  captureTimeoutMs : Nat
  highlightMs : Nat
  vadSilenceMs : Nat
  globalDenySelectors : List String
deriving DecidableEq

/-- Embedding of `DEFAULT_CONFIG` from `types.ts`. -/
def DEFAULT_CONFIG : VoicePageConfig :=
  { collisionPolicy := .disambiguate
    fuzzyThreshold := mkRat 7 10
    fuzzyMargin := mkRat 3 20
    kwsThreshold := mkRat 1 2
    captureTimeoutMs := 5000
    highlightMs := 300
    vadSilenceMs := 1000
    globalDenySelectors := [] }

/-! ## Matcher / resolver (`matcher.ts`) -/

inductive MatchType where
  | exact
  | fuzzy
deriving DecidableEq

/-- Embedding of the `MatchResult` interface. -/
structure MatchResult where
  type : MatchType
  target : DomTarget
  score : Rat
deriving DecidableEq

inductive ResStatus where
  | unique
  | ambiguous
  | no_match
  | misconfiguration
deriving DecidableEq

/-- The two shapes of the untyped `details` payload that `resolveTarget`
can produce: the label-to-ids groups of the duplicate-label scan, and
the `{ reason: 'duplicate exact matches' }` marker. -/
inductive ResDetails where
  | duplicateLabels (groups : List (String × List String))
  | duplicateExactMatches
deriving DecidableEq

/-- Embedding of the `ResolutionResult` interface.  The source field is
named `matches`; that word is reserved in Lean, so the field is called
`matchList` here. -/
structure ResolutionResult where
  status : ResStatus
  matchList : List MatchResult
  details : Option ResDetails
deriving DecidableEq

/-- Embedding of `levenshtein` from `matcher.ts`.  The source fills an
(m+1) by (n+1) table with `dp[i][0] = i`, `dp[0][j] = j` and
`dp[i][j] = a[i-1] === b[j-1] ? dp[i-1][j-1] : 1 + min(dp[i-1][j], dp[i][j-1], dp[i-1][j-1])`;
this definition computes the same recurrence by recursion on the two
strings. -/
def levenshtein : List Char → List Char → Nat
  | [], b => b.length
  | a :: as, [] => (a :: as).length
  | a :: as, b :: bs =>
    if a = b then levenshtein as bs
    else 1 + min (levenshtein as (b :: bs)) (min (levenshtein (a :: as) bs) (levenshtein as bs))
termination_by a b => a.length + b.length
decreasing_by all_goals simp +arith [List.length_cons]

/-- Embedding of `fuzzySimilarity` from `matcher.ts`. -/
def fuzzySimilarity (a b : String) : Rat :=
  let maxLen := max a.data.length b.data.length
  if maxLen = 0 then 1
  else 1 - (levenshtein a.data b.data : Rat) / (maxLen : Rat)

/-- One step of the `Map` building loop of `findDuplicateLabels`:
`labelMap.set(label, existing.push(target))`, where a JavaScript `Map`
keeps keys in first-insertion order. -/
def labelGroupsUpsert (m : List (String × List DomTarget)) (k : String) (t : DomTarget) :
    List (String × List DomTarget) :=
  match m with
  | [] => [(k, [t])]
  | (k', ts) :: rest =>
    if k' = k then (k', ts ++ [t]) :: rest else (k', ts) :: labelGroupsUpsert rest k t

/-- The label-to-targets map built by the first loop of
`findDuplicateLabels`. -/
def labelGroups (targets : List DomTarget) : List (String × List DomTarget) :=
  targets.foldl (fun m t => labelGroupsUpsert m t.normalizedLabel t) []

/-- Embedding of `findDuplicateLabels` from `matcher.ts`: the groups of
two or more targets sharing one normalized label. -/
def findDuplicateLabels (targets : List DomTarget) : List (String × List DomTarget) :=
  (labelGroups targets).filter (fun g => 1 < g.2.length)

/-- The exact-match pass of `resolveTarget`: one entry per target whose
normalized label equals the (already normalized) transcript or whose
synonym list contains it. -/
def exactCandidates (nq : String) (targets : List DomTarget) : List MatchResult :=
  targets.filterMap (fun t =>
    if t.normalizedLabel = nq then some ⟨.exact, t, 1⟩
    else if nq ∈ t.synonyms then some ⟨.exact, t, 1⟩
    else none)

/-- The per-target best fuzzy score of `resolveTarget`: the similarity
of the label, folded with `Math.max` over the synonyms. -/
def targetBestScore (nq : String) (t : DomTarget) : Rat :=
  t.synonyms.foldl (fun best syn => max best (fuzzySimilarity nq syn))
    (fuzzySimilarity nq t.normalizedLabel)

/-- The fuzzy-match pass of `resolveTarget`: targets whose best score
reaches `fuzzyThreshold`. -/
def fuzzyCandidates (nq : String) (targets : List DomTarget) (config : VoicePageConfig) :
    List MatchResult :=
  targets.filterMap (fun t =>
    if config.fuzzyThreshold ≤ targetBestScore nq t then
      some ⟨.fuzzy, t, targetBestScore nq t⟩
    else none)

/-- Model of `fuzzyScores.sort((a, b) => b.score - a.score)`.
JavaScript `Array.prototype.sort` is a stable sort, and the output of a
stable sort is uniquely determined by the comparator and the input
order, so the concrete algorithm is irrelevant; a stable insertion sort
is used here.  `insertByScore` places `x` before the first element whose
score does not exceed `x`'s (equal scores keep their original order). -/
def insertByScore (x : MatchResult) : List MatchResult → List MatchResult
  | [] => [x]
  | y :: ys => if x.score < y.score then y :: insertByScore x ys else x :: y :: ys

/-- Stable sort by descending score; see `insertByScore`. -/
def sortByScoreDesc : List MatchResult → List MatchResult
  | [] => []
  | x :: xs => insertByScore x (sortByScoreDesc xs)

/-- Body of `resolveTarget` after the initial
`normalizeLabel(transcript)`. -/
def resolveCore (normalizedTranscript : String) (targets : List DomTarget)
    (config : VoicePageConfig) : ResolutionResult :=
  -- Check for misconfiguration first (if policy = error)
  if config.collisionPolicy = .error ∧ findDuplicateLabels targets ≠ [] then
    { status := .misconfiguration, matchList := [],
      details := some (.duplicateLabels ((findDuplicateLabels targets).map
        (fun g => (g.1, g.2.map DomTarget.id)))) }
  else
    -- 1. Exact match on normalized label or synonyms
    let exactMatches := exactCandidates normalizedTranscript targets
    if exactMatches.length = 1 then
      { status := .unique, matchList := exactMatches, details := none }
    else if 1 < exactMatches.length then
      if config.collisionPolicy = .disambiguate then
        { status := .ambiguous, matchList := exactMatches, details := none }
      else
        { status := .misconfiguration, matchList := exactMatches,
          details := some .duplicateExactMatches }
    else
      -- 2. Fuzzy match
      let fuzzyScores := sortByScoreDesc (fuzzyCandidates normalizedTranscript targets config)
      match fuzzyScores with
      | [] => { status := .no_match, matchList := [], details := none }
      | [m] => { status := .unique, matchList := [m], details := none }
      | m0 :: m1 :: rest =>
        -- Check margin between top two
        if config.fuzzyMargin ≤ m0.score - m1.score then
          { status := .unique, matchList := [m0], details := none }
        else
          { status := .ambiguous, matchList := m0 :: m1 :: rest, details := none }

/-- Embedding of `resolveTarget` from `matcher.ts`: the transcript is
normalized once on entry, then resolved by `resolveCore`. -/
def resolveTarget (transcript : String) (targets : List DomTarget)
    (config : VoicePageConfig) : ResolutionResult :=
  resolveCore (normalizeLabel transcript) targets config

/-! Facts about the stable sort. -/

theorem insertByScore_perm (x : MatchResult) : ∀ (l : List MatchResult),
    (insertByScore x l).Perm (x :: l)
  | [] => List.Perm.refl _
  | y :: ys => by
    unfold insertByScore
    split
    · exact ((insertByScore_perm x ys).cons y).trans (List.Perm.swap x y ys)
    · exact List.Perm.refl _

theorem sortByScoreDesc_perm : ∀ (l : List MatchResult), (sortByScoreDesc l).Perm l
  | [] => List.Perm.refl _
  | x :: xs => (insertByScore_perm x (sortByScoreDesc xs)).trans
      ((sortByScoreDesc_perm xs).cons x)

theorem insertByScore_sorted {x : MatchResult} : ∀ {l : List MatchResult},
    l.Pairwise (fun a b => b.score ≤ a.score) →
    (insertByScore x l).Pairwise (fun a b => b.score ≤ a.score)
  | [], _ => by simp [insertByScore]
  | y :: ys, h => by
    rw [List.pairwise_cons] at h
    unfold insertByScore
    split
    · next hlt =>
      rw [List.pairwise_cons]
      constructor
      · intro z hz
        have := (insertByScore_perm x ys).mem_iff.mp hz
        rcases List.mem_cons.mp this with rfl | hz'
        · exact le_of_lt hlt
        · exact h.1 z hz'
      · exact insertByScore_sorted h.2
    · next hge =>
      rw [List.pairwise_cons]
      refine ⟨?_, List.pairwise_cons.mpr h⟩
      intro z hz
      rcases List.mem_cons.mp hz with rfl | hz'
      · exact le_of_not_lt hge
      · exact le_trans (h.1 z hz') (le_of_not_lt hge)

theorem sortByScoreDesc_sorted : ∀ (l : List MatchResult),
    (sortByScoreDesc l).Pairwise (fun a b => b.score ≤ a.score)
  | [] => List.Pairwise.nil
  | x :: xs => insertByScore_sorted (sortByScoreDesc_sorted xs)

/-- Every fuzzy candidate reached the threshold (by construction of the
filter in the fuzzy pass). -/
theorem mem_fuzzyCandidates_threshold {nq : String} {T : List DomTarget}
    {cfg : VoicePageConfig} {m : MatchResult} (h : m ∈ fuzzyCandidates nq T cfg) :
    cfg.fuzzyThreshold ≤ m.score := by
  unfold fuzzyCandidates at h
  rcases List.mem_filterMap.mp h with ⟨t, _, heq⟩
  split at heq
  · next hth =>
    cases heq
    exact hth
  · cases heq

/-! Characterization of the duplicate-label scan. -/

theorem labelGroupsUpsert_keys (k : String) (t : DomTarget) : ∀ (m : List (String × List DomTarget)),
    (labelGroupsUpsert m k t).map Prod.fst =
      if k ∈ m.map Prod.fst then m.map Prod.fst else m.map Prod.fst ++ [k]
  | [] => by simp [labelGroupsUpsert]
  | (k', ts) :: rest => by
    unfold labelGroupsUpsert
    by_cases hk : k' = k
    · subst hk
      simp
    · simp only [if_neg hk, List.map_cons, labelGroupsUpsert_keys k t rest]
      by_cases hmem : k ∈ rest.map Prod.fst
      · rw [if_pos hmem, if_pos (by simp [hmem])]
      · rw [if_neg hmem, if_neg (by simp [hmem, Ne.symm hk])]
        simp

theorem labelGroupsUpsert_entry {k : String} {t : DomTarget} :
    ∀ {m : List (String × List DomTarget)}, (m.map Prod.fst).Nodup →
    ∀ lg ∈ labelGroupsUpsert m k t,
      (lg.1 = k ∧ ∃ prev, lg.2 = prev ++ [t] ∧
        ((k, prev) ∈ m ∨ (prev = [] ∧ k ∉ m.map Prod.fst))) ∨
      (lg.1 ≠ k ∧ lg ∈ m)
  | [], _, lg, hlg => by
    simp only [labelGroupsUpsert, List.mem_singleton] at hlg
    subst hlg
    exact Or.inl ⟨rfl, [], by simp⟩
  | (k', ts) :: rest, hnd, lg, hlg => by
    rw [List.map_cons, List.nodup_cons] at hnd
    unfold labelGroupsUpsert at hlg
    by_cases hk : k' = k
    · subst hk
      rw [if_pos rfl] at hlg
      rcases List.mem_cons.mp hlg with rfl | hrest
      · exact Or.inl ⟨rfl, ts, rfl, Or.inl (List.mem_cons_self _ _)⟩
      · by_cases hlgk : lg.1 = k'
        · exfalso
          apply hnd.1
          exact List.mem_map.mpr ⟨lg, hrest, hlgk⟩
        · exact Or.inr ⟨hlgk, List.mem_cons_of_mem _ hrest⟩
    · rw [if_neg hk] at hlg
      rcases List.mem_cons.mp hlg with rfl | hrest
      · exact Or.inr ⟨hk, List.mem_cons_self _ _⟩
      · rcases labelGroupsUpsert_entry hnd.2 lg hrest with ⟨h1, prev, h2, h3⟩ | ⟨h1, h2⟩
        · refine Or.inl ⟨h1, prev, h2, ?_⟩
          rcases h3 with h3 | ⟨h3a, h3b⟩
          · exact Or.inl (List.mem_cons_of_mem _ h3)
          · refine Or.inr ⟨h3a, ?_⟩
            simp only [List.map_cons, List.mem_cons]
            rintro (rfl | hc)
            · exact hk rfl
            · exact h3b hc
        · exact Or.inr ⟨h1, List.mem_cons_of_mem _ h2⟩

/-- Invariant carried through the label-grouping fold: `acc` groups the
already-seen targets `S` by normalized label. -/
def GroupsOk (S : List DomTarget) (acc : List (String × List DomTarget)) : Prop :=
  (∀ lg ∈ acc, lg.2 = S.filter (fun t => t.normalizedLabel = lg.1)) ∧
  (acc.map Prod.fst).Nodup ∧
  (∀ t ∈ S, t.normalizedLabel ∈ acc.map Prod.fst)

theorem filter_append_singleton (S : List DomTarget) (t : DomTarget) (p : DomTarget → Bool) :
    (S ++ [t]).filter p = S.filter p ++ if p t then [t] else [] := by
  rw [List.filter_append]
  by_cases h : p t <;> simp [h]

theorem groupsOk_step {S : List DomTarget} {acc : List (String × List DomTarget)}
    (h : GroupsOk S acc) (t : DomTarget) :
    GroupsOk (S ++ [t]) (labelGroupsUpsert acc t.normalizedLabel t) := by
  obtain ⟨hval, hnd, hcov⟩ := h
  refine ⟨?_, ?_, ?_⟩
  · intro lg hlg
    rcases labelGroupsUpsert_entry hnd lg hlg with ⟨h1, prev, h2, h3⟩ | ⟨h1, h2⟩
    · have hprev : prev = S.filter (fun u => u.normalizedLabel = lg.1) := by
        rcases h3 with h3 | ⟨rfl, h3b⟩
        · have := hval _ h3
          simpa [h1] using this
        · symm
          rw [List.filter_eq_nil_iff]
          intro u hu hml
          apply h3b
          rw [h1] at hml
          have : u.normalizedLabel = t.normalizedLabel := by simpa using hml
          rw [← this]
          exact hcov u hu
      rw [filter_append_singleton, ← hprev, h2, if_pos (by simp [h1])]
    · have := hval _ h2
      have hcond : ¬((fun u => decide (u.normalizedLabel = lg.1)) t = true) := by
        simp only [decide_eq_true_eq]
        exact fun e => h1 e.symm
      rw [filter_append_singleton, this, if_neg hcond, List.append_nil]
  · rw [labelGroupsUpsert_keys]
    split
    · exact hnd
    · next hnotmem =>
        exact List.Nodup.append hnd (List.nodup_singleton _)
          (by simpa [List.disjoint_singleton] using hnotmem)
  · intro u hu
    rw [labelGroupsUpsert_keys]
    rcases List.mem_append.mp hu with hu | hu
    · have := hcov u hu
      split
      · exact this
      · exact List.mem_append_left _ this
    · have : u = t := by simpa using hu
      subst this
      split
      · next hmem => exact hmem
      · exact List.mem_append_right _ (by simp)

theorem groupsOk_foldl : ∀ (T S : List DomTarget) (acc : List (String × List DomTarget)),
    GroupsOk S acc →
    GroupsOk (S ++ T) (T.foldl (fun m t => labelGroupsUpsert m t.normalizedLabel t) acc)
  | [], S, acc, h => by simpa using h
  | t :: T, S, acc, h => by
    have h1 := groupsOk_step h t
    have h2 := groupsOk_foldl T (S ++ [t]) _ h1
    simpa using h2

theorem labelGroups_spec (T : List DomTarget) : GroupsOk T (labelGroups T) := by
  have := groupsOk_foldl T [] [] ⟨by simp, by simp, by simp⟩
  simpa [labelGroups] using this

theorem findDuplicateLabels_groups (T : List DomTarget) :
    ∀ lg ∈ findDuplicateLabels T,
      lg.2 = T.filter (fun t => t.normalizedLabel = lg.1) ∧ 2 ≤ lg.2.length := by
  intro lg hlg
  unfold findDuplicateLabels at hlg
  have hmem := List.mem_of_mem_filter hlg
  have hlen := List.of_mem_filter hlg
  refine ⟨(labelGroups_spec T).1 lg hmem, ?_⟩
  simpa using hlen

theorem findDuplicateLabels_ne_nil {T : List DomTarget} {l₀ : String}
    (h : 2 ≤ (T.filter (fun t => t.normalizedLabel = l₀)).length) :
    findDuplicateLabels T ≠ [] := by
  obtain ⟨hval, _, hcov⟩ := labelGroups_spec T
  have hne : (T.filter (fun t => t.normalizedLabel = l₀)) ≠ [] := by
    intro hnil
    rw [hnil] at h
    simp at h
  obtain ⟨u, hu⟩ := List.exists_mem_of_ne_nil _ hne
  have huT := List.mem_of_mem_filter hu
  have hul : u.normalizedLabel = l₀ := by simpa using List.of_mem_filter hu
  have : l₀ ∈ (labelGroups T).map Prod.fst := hul ▸ hcov u huT
  rcases List.mem_map.mp this with ⟨lg, hlg, hfst⟩
  intro hnil
  have : lg ∈ findDuplicateLabels T := by
    unfold findDuplicateLabels
    apply List.mem_filter.mpr
    refine ⟨hlg, ?_⟩
    have := hval lg hlg
    rw [this, hfst]
    simpa using h
  rw [hnil] at this
  cases this

/-- Claim C9: resolution is invariant under normalization of the
transcript, because the transcript is normalized once on entry and
`normalizeLabel` is idempotent. -/
theorem resolveTarget_normalize_invariant (q : String) (T : List DomTarget)
    (cfg : VoicePageConfig) :
    resolveTarget q T cfg = resolveTarget (normalizeLabel q) T cfg := by
  unfold resolveTarget
  rw [normalizeLabel_idem_raw]

/-- Claim C4: under `collisionPolicy = error`, an index in which some
normalized label is shared by two or more targets resolves to
`misconfiguration` for every transcript, and the details group every
offending label to the colliding target ids. -/
theorem resolveTarget_error_duplicates (q l₀ : String) (T : List DomTarget)
    (cfg : VoicePageConfig) (hpol : cfg.collisionPolicy = .error)
    (hdup : 2 ≤ (T.filter (fun t => t.normalizedLabel = l₀)).length) :
    (resolveTarget q T cfg).status = .misconfiguration ∧
    ∃ groups, (resolveTarget q T cfg).details = some (.duplicateLabels groups) ∧
      groups ≠ [] ∧
      ∀ g ∈ groups, 2 ≤ g.2.length ∧
        g.2 = (T.filter (fun t => t.normalizedLabel = g.1)).map DomTarget.id := by
  have hne := findDuplicateLabels_ne_nil hdup
  have hcond : cfg.collisionPolicy = .error ∧ findDuplicateLabels T ≠ [] := ⟨hpol, hne⟩
  unfold resolveTarget resolveCore
  rw [if_pos hcond]
  refine ⟨rfl, _, rfl, ?_, ?_⟩
  · simp only [ne_eq, List.map_eq_nil_iff]
    exact hne
  · intro g hg
    rcases List.mem_map.mp hg with ⟨lg, hlg, rfl⟩
    obtain ⟨hfilter, hlen⟩ := findDuplicateLabels_groups T lg hlg
    constructor
    · simpa using hlen
    · rw [hfilter]

/-- Witness for C4: two buttons labeled "delete" under the error
policy. -/
theorem resolveTarget_error_duplicates_witness :
    (resolveTarget "submit"
      [⟨"vp-1", ⟨"BUTTON", none⟩, "Delete", "delete", [], none⟩,
       ⟨"vp-2", ⟨"BUTTON", none⟩, "Delete", "delete", [], none⟩]
      { DEFAULT_CONFIG with collisionPolicy := .error }).status = .misconfiguration ∧
    ∃ groups, (resolveTarget "submit"
      [⟨"vp-1", ⟨"BUTTON", none⟩, "Delete", "delete", [], none⟩,
       ⟨"vp-2", ⟨"BUTTON", none⟩, "Delete", "delete", [], none⟩]
      { DEFAULT_CONFIG with collisionPolicy := .error }).details =
        some (.duplicateLabels groups) ∧
      groups ≠ [] ∧
      ∀ g ∈ groups, 2 ≤ g.2.length ∧
        g.2 = (([⟨"vp-1", ⟨"BUTTON", none⟩, "Delete", "delete", [], none⟩,
          ⟨"vp-2", ⟨"BUTTON", none⟩, "Delete", "delete", [], none⟩] :
            List DomTarget).filter (fun t => t.normalizedLabel = g.1)).map DomTarget.id :=
  resolveTarget_error_duplicates "submit" "delete" _ _ rfl (by decide)

/-- Claim C3: under `collisionPolicy = disambiguate`, `resolveTarget`
returns `unique` only if exactly one target matches the normalized
transcript exactly, or no target matches exactly and some fuzzy
candidate reaches `fuzzyThreshold`, is at least every other candidate's
score, and exceeds every other candidate's score (in particular the
second best) by at least `fuzzyMargin` — vacuously when there is no
second qualifying candidate. -/
theorem resolveTarget_unique_conditions (q : String) (T : List DomTarget)
    (cfg : VoicePageConfig) (hpol : cfg.collisionPolicy = .disambiguate)
    (h : (resolveTarget q T cfg).status = .unique) :
    (exactCandidates (normalizeLabel q) T).length = 1 ∨
    (exactCandidates (normalizeLabel q) T = [] ∧
      ∃ m ∈ fuzzyCandidates (normalizeLabel q) T cfg,
        cfg.fuzzyThreshold ≤ m.score ∧
        (∀ m' ∈ fuzzyCandidates (normalizeLabel q) T cfg, m'.score ≤ m.score) ∧
        (∀ s ∈ (((fuzzyCandidates (normalizeLabel q) T cfg).map MatchResult.score).erase
            m.score), cfg.fuzzyMargin ≤ m.score - s)) := by
  unfold resolveTarget resolveCore at h
  rw [if_neg (by simp [hpol])] at h
  set nq := normalizeLabel q with hnq
  by_cases hlen : (exactCandidates nq T).length = 1
  · exact Or.inl hlen
  · rw [if_neg hlen] at h
    by_cases hlen2 : 1 < (exactCandidates nq T).length
    · rw [if_pos hlen2, if_pos hpol] at h
      cases h
    · have hnil : exactCandidates nq T = [] := by
        rw [← List.length_eq_zero]
        omega
      refine Or.inr ⟨hnil, ?_⟩
      rw [if_neg hlen2] at h
      dsimp only at h
      have hperm := sortByScoreDesc_perm (fuzzyCandidates nq T cfg)
      have hsorted := sortByScoreDesc_sorted (fuzzyCandidates nq T cfg)
      rcases hsort : sortByScoreDesc (fuzzyCandidates nq T cfg) with _ | ⟨m0, tail⟩
      · rw [hsort] at h
        cases h
      · rcases tail with _ | ⟨m1, rest⟩
        · rw [hsort] at hperm
          have hq : fuzzyCandidates nq T cfg = [m0] := List.perm_singleton.mp hperm.symm
          have hm0 : m0 ∈ fuzzyCandidates nq T cfg := by
            rw [hq]; exact List.mem_singleton_self _
          refine ⟨m0, hm0, mem_fuzzyCandidates_threshold hm0, ?_, ?_⟩
          · intro m' hm'
            rw [hq, List.mem_singleton] at hm'
            rw [hm']
          · intro s hs
            rw [hq] at hs
            simp [List.erase_cons_head] at hs
        · rw [hsort] at h hperm hsorted
          dsimp only at h
          by_cases hmargin : cfg.fuzzyMargin ≤ m0.score - m1.score
          · have hm0 : m0 ∈ fuzzyCandidates nq T cfg :=
              hperm.mem_iff.mp (List.mem_cons_self _ _)
            refine ⟨m0, hm0, mem_fuzzyCandidates_threshold hm0, ?_, ?_⟩
            · intro m' hm'
              rcases List.mem_cons.mp (hperm.mem_iff.mpr hm') with rfl | hm''
              · exact le_refl _
              · exact (List.pairwise_cons.mp hsorted).1 m' hm''
            · intro s hs
              have hpermscores : ((fuzzyCandidates nq T cfg).map MatchResult.score).Perm
                  ((m0 :: m1 :: rest).map MatchResult.score) := hperm.symm.map _
              have hpermerase := hpermscores.erase m0.score
              rw [List.map_cons, List.erase_cons_head] at hpermerase
              have hsmem := hpermerase.mem_iff.mp hs
              rcases List.mem_map.mp hsmem with ⟨m', hm', rfl⟩
              have hm'le : m'.score ≤ m1.score := by
                rcases List.mem_cons.mp hm' with rfl | hm''
                · exact le_refl _
                · exact (List.pairwise_cons.mp (List.pairwise_cons.mp hsorted).2).1 m' hm''
              calc cfg.fuzzyMargin ≤ m0.score - m1.score := hmargin
                _ ≤ m0.score - m'.score := by
                    exact sub_le_sub_left hm'le m0.score
          · rw [if_neg hmargin] at h
            cases h

/-- Witness for C3: a unique exact match under the default
configuration. -/
theorem resolveTarget_unique_conditions_witness :
    (exactCandidates (normalizeLabel "Submit")
      [⟨"vp-1", ⟨"BUTTON", none⟩, "Submit", "submit", [], none⟩]).length = 1 ∨
    (exactCandidates (normalizeLabel "Submit")
      [⟨"vp-1", ⟨"BUTTON", none⟩, "Submit", "submit", [], none⟩] = [] ∧
      ∃ m ∈ fuzzyCandidates (normalizeLabel "Submit")
          [⟨"vp-1", ⟨"BUTTON", none⟩, "Submit", "submit", [], none⟩] DEFAULT_CONFIG,
        DEFAULT_CONFIG.fuzzyThreshold ≤ m.score ∧
        (∀ m' ∈ fuzzyCandidates (normalizeLabel "Submit")
            [⟨"vp-1", ⟨"BUTTON", none⟩, "Submit", "submit", [], none⟩] DEFAULT_CONFIG,
          m'.score ≤ m.score) ∧
        (∀ s ∈ (((fuzzyCandidates (normalizeLabel "Submit")
            [⟨"vp-1", ⟨"BUTTON", none⟩, "Submit", "submit", [], none⟩]
              DEFAULT_CONFIG).map MatchResult.score).erase m.score),
          DEFAULT_CONFIG.fuzzyMargin ≤ m.score - s)) :=
  resolveTarget_unique_conditions "Submit" _ DEFAULT_CONFIG rfl (by decide)

/-- Counterexample to claim C5 as stated: two indices with the same
policy (`error`) and the same set of exact matches for the transcript
"bar" resolve differently, because under the error policy the
duplicate-label scan runs first and depends on labels of targets that
are not exact matches.  So the result is not determined solely by the
exact-match set and the policy. -/
theorem resolveTarget_exact_determinism_counterexample :
    exactCandidates (normalizeLabel "bar")
      [⟨"vp-1", ⟨"BUTTON", none⟩, "Foo", "foo", [], none⟩,
       ⟨"vp-2", ⟨"BUTTON", none⟩, "Foo", "foo", [], none⟩,
       ⟨"vp-3", ⟨"BUTTON", none⟩, "Bar", "bar", [], none⟩] =
    exactCandidates (normalizeLabel "bar")
      [⟨"vp-3", ⟨"BUTTON", none⟩, "Bar", "bar", [], none⟩] ∧
    exactCandidates (normalizeLabel "bar")
      [⟨"vp-3", ⟨"BUTTON", none⟩, "Bar", "bar", [], none⟩] ≠ [] ∧
    (resolveTarget "bar"
      [⟨"vp-1", ⟨"BUTTON", none⟩, "Foo", "foo", [], none⟩,
       ⟨"vp-2", ⟨"BUTTON", none⟩, "Foo", "foo", [], none⟩,
       ⟨"vp-3", ⟨"BUTTON", none⟩, "Bar", "bar", [], none⟩]
      { DEFAULT_CONFIG with collisionPolicy := .error }).status ≠
    (resolveTarget "bar"
      [⟨"vp-3", ⟨"BUTTON", none⟩, "Bar", "bar", [], none⟩]
      { DEFAULT_CONFIG with collisionPolicy := .error }).status := by decide

/-- Claim C5 (amended): when at least one target matches exactly and —
under the error policy — the index has no duplicate normalized labels,
the result is determined solely by the exact-match list and the
collision policy (unique for one exact match, ambiguous / duplicate
misconfiguration for several), and no fuzzy similarity influences the
outcome. -/
theorem resolveTarget_exact_priority (q : String) (T : List DomTarget)
    (cfg : VoicePageConfig)
    (hne : exactCandidates (normalizeLabel q) T ≠ [])
    (hnodup : cfg.collisionPolicy = .error → findDuplicateLabels T = []) :
    resolveTarget q T cfg =
      (if (exactCandidates (normalizeLabel q) T).length = 1 then
        { status := .unique, matchList := exactCandidates (normalizeLabel q) T,
          details := none }
      else if cfg.collisionPolicy = .disambiguate then
        { status := .ambiguous, matchList := exactCandidates (normalizeLabel q) T,
          details := none }
      else
        { status := .misconfiguration, matchList := exactCandidates (normalizeLabel q) T,
          details := some .duplicateExactMatches }) := by
  unfold resolveTarget resolveCore
  have hcond : ¬(cfg.collisionPolicy = .error ∧ findDuplicateLabels T ≠ []) := by
    rintro ⟨h1, h2⟩
    exact h2 (hnodup h1)
  rw [if_neg hcond]
  by_cases hlen : (exactCandidates (normalizeLabel q) T).length = 1
  · rw [if_pos hlen, if_pos hlen]
  · rw [if_neg hlen, if_neg hlen]
    have hlen2 : 1 < (exactCandidates (normalizeLabel q) T).length := by
      rcases hl : (exactCandidates (normalizeLabel q) T).length with _ | n
      · rw [List.length_eq_zero] at hl
        exact absurd hl hne
      · rcases n with _ | n
        · exact absurd hl hlen
        · omega
    rw [if_pos hlen2]

/-- Witness for C5: a single exact match under the error policy with no
duplicate labels resolves to `unique`, as the amended determination
says. -/
theorem resolveTarget_exact_priority_witness :
    resolveTarget "bar" [⟨"vp-3", ⟨"BUTTON", none⟩, "Bar", "bar", [], none⟩]
      { DEFAULT_CONFIG with collisionPolicy := .error } =
      (if (exactCandidates (normalizeLabel "bar")
          [⟨"vp-3", ⟨"BUTTON", none⟩, "Bar", "bar", [], none⟩]).length = 1 then
        { status := .unique,
          matchList := exactCandidates (normalizeLabel "bar")
            [⟨"vp-3", ⟨"BUTTON", none⟩, "Bar", "bar", [], none⟩],
          details := none }
      else if ({ DEFAULT_CONFIG with
          collisionPolicy := .error } : VoicePageConfig).collisionPolicy =
            .disambiguate then
        { status := .ambiguous,
          matchList := exactCandidates (normalizeLabel "bar")
            [⟨"vp-3", ⟨"BUTTON", none⟩, "Bar", "bar", [], none⟩],
          details := none }
      else
        { status := .misconfiguration,
          matchList := exactCandidates (normalizeLabel "bar")
            [⟨"vp-3", ⟨"BUTTON", none⟩, "Bar", "bar", [], none⟩],
          details := some .duplicateExactMatches }) :=
  resolveTarget_exact_priority "bar" _ _ (by decide) (fun _ => by decide)

/-! ## Events (`types.ts`) -/

/-- The wake keywords.  Source values are the strings `'open'`,
`'click'`, `'stop'`, `'cancel'`, `'help'`; `open` is reserved in Lean,
so the constructors carry a `kw` prefix. -/
inductive Keyword where
  | kwOpen
  | kwClick
  | kwStop
  | kwCancel
  | kwHelp
deriving DecidableEq

inductive CaptureReason where
  | vad
  | timeout
  | stop
  | cancel
deriving DecidableEq

inductive Scope where
  | page
  | modal
deriving DecidableEq

inductive ActionType where
  | click
  | focus
  | activate
  | scroll_focus
deriving DecidableEq

inductive ErrorCode where
  | MIC_PERMISSION_DENIED
  | MIC_NOT_AVAILABLE
  | KWS_INIT_FAILED
  | VAD_INIT_FAILED
  | ASR_INIT_FAILED
  | ASR_FAILED
  | NO_SPEECH_DETECTED
  | NO_MATCH
  | AMBIGUOUS_MATCH
  | MISCONFIG_DUPLICATE_LABELS
  | MISCONFIG_NO_ADDRESSABLE_TARGETS
  | EXECUTION_FAILED
deriving DecidableEq

/-- The untyped `details` payloads the engine attaches to
`TargetResolutionFailed`: either the resolver's own details or the
candidate list `{candidates: [{targetId, label, score}]}` built in the
ambiguous case. -/
inductive EventDetails where
  | resolution (d : ResDetails)
  | candidates (cs : List (String × String × Rat))
deriving DecidableEq

/-- Embedding of the `VoicePageEvent` union from `types.ts`.  Request
ids are modeled as the numbers minted by the `requestCounter` module
counter (`nextRequestId` builds the string `req-<counter>-<Date.now()>`
from it).  The wall-clock `ts` field and the opaque error `details` of
`EngineError` are not modeled; no checked claim depends on them. -/
inductive VPEvent where
  | ListeningChanged (enabled : Bool)
  | KeywordDetected (keyword : Keyword) (confidence : Option Rat)
  | CaptureStarted (requestId : Nat)
  | CaptureEnded (requestId : Nat) (reason : CaptureReason)
  | TranscriptionStarted (requestId : Nat)
  | TranscriptReady (requestId : Nat) (transcript : String)
  | TargetIndexBuilt (requestId : Nat) (targetCount : Nat) (scope : Scope)
  | TargetResolved (requestId : Nat) (targetId : String) (label : String)
      (matchKind : MatchType)
  | TargetResolutionFailed (requestId : Nat) (reason : ResStatus)
      (details : Option EventDetails)
  | ActionProposed (requestId : Nat) (action : ActionType) (targetId : String)
      (risk : Option Risk)
  | ConfirmationRequired (requestId : Nat) (action : ActionType) (targetId : String)
      (label : String)
  | ActionExecuted (requestId : Nat) (action : ActionType) (targetId : String)
      (ok : Bool) (error : Option String)
  | EngineError (requestId : Option Nat) (code : ErrorCode) (message : String)
deriving DecidableEq

/-! ## Event bus (`event-bus.ts`)

Listeners are identified by numbers; their behavior is an environment
`env : Nat → VPEvent → Except String Unit` (`Except.error` models a
thrown exception).  The `Set` of listeners iterates in insertion order
in JavaScript, so it is modeled as a duplicate-free list in insertion
order. -/

structure EventBus where
  listeners : List Nat
  history : List VPEvent
deriving DecidableEq

/-- Embedding of `EventBus.on`: `Set.add`, a no-op when the listener is
already registered.  The returned unsubscribe closure is modeled
separately by `EventBus.off`. -/
def EventBus.on (bus : EventBus) (l : Nat) : EventBus :=
  if l ∈ bus.listeners then bus else { bus with listeners := bus.listeners ++ [l] }

/-- The unsubscribe closure returned by `on`: `Set.delete`. -/
def EventBus.off (bus : EventBus) (l : Nat) : EventBus :=
  { bus with listeners := bus.listeners.filter (fun l' => l' ≠ l) }

/-- The listener loop of `EventBus.emit`.  Each iteration runs
`try { listener(event) } catch { }`: whatever the listener's outcome,
it is recorded and the loop continues with the next listener — this is
the per-listener catch of the source. -/
def emitLoop (env : Nat → VPEvent → Except String Unit) (e : VPEvent) :
    List Nat → List (Nat × Except String Unit)
  | [] => []
  | l :: rest =>
    match env l e with
    | .ok u => (l, .ok u) :: emitLoop env e rest
    | .error msg => (l, .error msg) :: emitLoop env e rest

/-- Embedding of `EventBus.emit`: the event is pushed onto the history,
then every listener is invoked in registration order.  The function is
total — the per-listener catch means no listener outcome can escape to
the caller — and it returns the outcome of every invocation for
observation. -/
def EventBus.emit (bus : EventBus) (env : Nat → VPEvent → Except String Unit)
    (e : VPEvent) : EventBus × List (Nat × Except String Unit) :=
  ({ bus with history := bus.history ++ [e] }, emitLoop env e bus.listeners)

/-- Embedding of `EventBus.clear`. -/
def EventBus.clear (_ : EventBus) : EventBus := { listeners := [], history := [] }

theorem emitLoop_fst (env : Nat → VPEvent → Except String Unit) (e : VPEvent) :
    ∀ ls : List Nat, (emitLoop env e ls).map Prod.fst = ls
  | [] => rfl
  | l :: rest => by
    unfold emitLoop
    cases env l e <;> simp [emitLoop_fst env e rest]

theorem emitLoop_outcome (env : Nat → VPEvent → Except String Unit) (e : VPEvent) :
    ∀ ls : List Nat, ∀ l ∈ ls, (l, env l e) ∈ emitLoop env e ls
  | [], l, hl => by cases hl
  | x :: rest, l, hl => by
    unfold emitLoop
    rcases List.mem_cons.mp hl with rfl | hl'
    · cases henv : env l e <;> simp [henv]
    · cases henv : env x e <;>
        exact List.mem_cons_of_mem _ (emitLoop_outcome env e rest l hl')

/-- Claim C7: `emit` appends the event to the history exactly once and
invokes every registered listener in registration order; a listener
that throws (here: some registered `l₀` with `env l₀ e = .error msg`)
does not prevent any invocation, does not change what is recorded, and
does not reach the caller (`emit` is a total function returning the new
bus). -/
theorem eventBus_emit_isolates (bus : EventBus)
    (env : Nat → VPEvent → Except String Unit) (e : VPEvent) (l₀ : Nat) (msg : String)
    (h1 : l₀ ∈ bus.listeners) (h2 : env l₀ e = .error msg) :
    (bus.emit env e).1.history = bus.history ++ [e] ∧
    (bus.emit env e).1.listeners = bus.listeners ∧
    ((bus.emit env e).2.map Prod.fst = bus.listeners) ∧
    (∀ l ∈ bus.listeners, (l, env l e) ∈ (bus.emit env e).2) := by
  refine ⟨rfl, rfl, emitLoop_fst env e bus.listeners, ?_⟩
  intro l hl
  exact emitLoop_outcome env e bus.listeners l hl

/-- Witness for C7: a concrete bus with a throwing first listener; the
second listener is still invoked and the event is recorded once. -/
theorem eventBus_emit_isolates_witness :
    (EventBus.emit ⟨[0, 1], []⟩
      (fun l _ => if l = 0 then .error "boom" else .ok ()) (.ListeningChanged true)).1.history =
      [] ++ [.ListeningChanged true] ∧
    (EventBus.emit ⟨[0, 1], []⟩
      (fun l _ => if l = 0 then .error "boom" else .ok ()) (.ListeningChanged true)).1.listeners =
      [0, 1] ∧
    ((EventBus.emit ⟨[0, 1], []⟩
      (fun l _ => if l = 0 then .error "boom" else .ok ()) (.ListeningChanged true)).2.map
        Prod.fst = [0, 1]) ∧
    (∀ l ∈ ([0, 1] : List Nat),
      (l, (fun (l : Nat) (_ : VPEvent) => if l = 0 then Except.error "boom" else Except.ok ()) l
        (.ListeningChanged true)) ∈
      (EventBus.emit ⟨[0, 1], []⟩
        (fun l _ => if l = 0 then .error "boom" else .ok ()) (.ListeningChanged true)).2) :=
  eventBus_emit_isolates ⟨[0, 1], []⟩
    (fun l _ => if l = 0 then .error "boom" else .ok ()) (.ListeningChanged true) 0 "boom"
    (by decide) rfl

/-! ## Keyword-spotting cooldown (`engines/oww-kws-engine.ts`)

The mel / embedding / classifier inference produces one score per
keyword per classification round; the inference itself is external
(ONNX sessions), so a classification round is modeled as an input
carrying, per keyword session in map order, the keyword, the score
`Math.max(...outputTensor)` and the `performance.now()` timestamp
(milliseconds, modeled as an integer).  The per-round logic of
`classifyKeywords` — report the raw score to the observer, compare
against the threshold, check and update the per-keyword cooldown map,
invoke the detection callback — is embedded below.  `start` sets the
callback and clears `lastDetection`; `stop` clears the callback.
A classification round is allowed in any state (scores produced by an
inference already in flight when `stop` lands still run the loop with a
null callback), which only enlarges the set of modeled behaviors. -/

/-- Options of `OwwKwsEngine` (model-relevant fields). -/
structure OwwKwsEngineOptions where
  thresholds : Option (List (String × Rat))
  defaultThreshold : Option Rat
  cooldownMs : Option Int
deriving DecidableEq

/-- Configuration after the constructor's `??` defaulting. -/
structure OwwKwsConfig where
  thresholds : List (String × Rat)
  defaultThreshold : Rat
  cooldownMs : Int
deriving DecidableEq

/-- The constructor of `OwwKwsEngine`:
`defaultThreshold ?? 0.5`, `thresholds ?? {}`, `cooldownMs ?? 1500`. -/
def OwwKwsConfig.ofOptions (o : OwwKwsEngineOptions) : OwwKwsConfig :=
  { thresholds := o.thresholds.getD []
    defaultThreshold := o.defaultThreshold.getD (mkRat 1 2)
    cooldownMs := o.cooldownMs.getD 1500 }

/-- `this.thresholds[keyword] ?? this.defaultThreshold`. -/
def thresholdOf (cfg : OwwKwsConfig) (k : String) : Rat :=
  (cfg.thresholds.lookup k).getD cfg.defaultThreshold

/-- `Map.set` on the cooldown map (updates in place, insertion order). -/
def setLast : List (String × Int) → String → Int → List (String × Int)
  | [], k, v => [(k, v)]
  | (k', v') :: rest, k, v =>
    if k' = k then (k, v) :: rest else (k', v') :: setLast rest k v

/-- Observable outputs of a run of the KWS engine: invocations of the
`onScore` observer, invocations of the detection callback (these are
what the engine turns into `KeywordDetected` events), and markers for
`start` / `stop` calls. -/
inductive KwsOut where
  | scored (keyword : String) (score : Rat)
  | fired (keyword : String) (score : Rat) (time : Int)
  | started
  | stopped
deriving DecidableEq

/-- One iteration of the keyword loop of `classifyKeywords`: report the
raw score, then fire when the score reaches the threshold and at least
`cooldownMs` elapsed since the keyword's recorded last detection
(`lastDetection.get(keyword) ?? -Infinity`: an absent entry always
passes).  On firing, the detection time is recorded and the callback —
when set — is invoked. -/
def classifyKeyword (cfg : OwwKwsConfig) (cb : Bool) (ld : List (String × Int))
    (k : String) (score : Rat) (now : Int) : List (String × Int) × List KwsOut :=
  let outs := [KwsOut.scored k score]
  if thresholdOf cfg k ≤ score then
    let fireOk := match ld.lookup k with
      | none => true
      | some last => decide (cfg.cooldownMs ≤ now - last)
    if fireOk then
      (setLast ld k now, outs ++ if cb then [KwsOut.fired k score now] else [])
    else (ld, outs)
  else (ld, outs)

/-- The keyword loop of `classifyKeywords` over all keyword sessions of
one classification round. -/
def classifyStep (cfg : OwwKwsConfig) (cb : Bool) :
    List (String × Rat × Int) → List (String × Int) → List (String × Int) × List KwsOut
  | [], ld => (ld, [])
  | (k, score, now) :: rest, ld =>
    let p1 := classifyKeyword cfg cb ld k score now
    let p2 := classifyStep cfg cb rest p1.1
    (p2.1, p1.2 ++ p2.2)

/-- Inputs of the KWS engine model. -/
inductive KwsIn where
  | start
  | stop
  | classify (obs : List (String × Rat × Int))
deriving DecidableEq

structure OwwKwsState where
  running : Bool
  callbackSet : Bool
  lastDetection : List (String × Int)
deriving DecidableEq

/-- `start` / `stop` / one classification round. -/
def kwsStep (cfg : OwwKwsConfig) (st : OwwKwsState) : KwsIn → OwwKwsState × List KwsOut
  | .start => (⟨true, true, []⟩, [.started])
  | .stop => (⟨false, false, st.lastDetection⟩, [.stopped])
  | .classify obs =>
    let p := classifyStep cfg st.callbackSet obs st.lastDetection
    (⟨st.running, st.callbackSet, p.1⟩, p.2)

/-- A run of the KWS engine from a given state, collecting outputs. -/
def kwsRunFrom (cfg : OwwKwsConfig) (st : OwwKwsState) : List KwsIn → OwwKwsState × List KwsOut
  | [] => (st, [])
  | i :: ins =>
    let p1 := kwsStep cfg st i
    let p2 := kwsRunFrom cfg p1.1 ins
    (p2.1, p1.2 ++ p2.2)

/-- A run of the KWS engine from its initial state. -/
def kwsRun (cfg : OwwKwsConfig) (ins : List KwsIn) : OwwKwsState × List KwsOut :=
  kwsRunFrom cfg ⟨false, false, []⟩ ins

/-- Projection of a run's outputs onto one keyword: its detection
callback times, interleaved with `start` markers (`none`). -/
def kwsProj (k : String) : List KwsOut → List (Option Int) :=
  List.filterMap (fun o => match o with
    | .fired k' _ t => if k' = k then some (some t) else none
    | .started => some none
    | _ => none)

/-- Adjacent-pair relation for the cooldown claim: two adjacent
detections (with no `start` between, since a `start` marker would sit
between them in the projection) are at least `cooldownMs` apart. -/
def cooldownGap (cfg : OwwKwsConfig) (a b : Option Int) : Prop :=
  ∀ t1 t2, a = some t1 → b = some t2 → cfg.cooldownMs ≤ t2 - t1

theorem setLast_lookup_self : ∀ (ld : List (String × Int)) (k : String) (v : Int),
    (setLast ld k v).lookup k = some v
  | [], k, v => by simp [setLast, List.lookup]
  | (k', v') :: rest, k, v => by
    unfold setLast
    by_cases h : k' = k
    · rw [if_pos h]
      simp [List.lookup]
    · rw [if_neg h]
      have hbf : (k == k') = false := beq_eq_false_iff_ne.mpr (fun e => h e.symm)
      simp only [List.lookup, hbf]
      exact setLast_lookup_self rest k v

theorem setLast_lookup_other : ∀ (ld : List (String × Int)) (k₀ k : String) (v : Int),
    k ≠ k₀ → (setLast ld k₀ v).lookup k = ld.lookup k
  | [], k₀, k, v, h => by
    have hbf : (k == k₀) = false := beq_eq_false_iff_ne.mpr h
    simp [setLast, List.lookup, hbf]
  | (k', v') :: rest, k₀, k, v, h => by
    unfold setLast
    have hbf : (k == k₀) = false := beq_eq_false_iff_ne.mpr h
    by_cases hk : k' = k₀
    · rw [if_pos hk]
      have hbf2 : (k == k') = false := beq_eq_false_iff_ne.mpr (hk ▸ h)
      simp only [List.lookup, hbf, hbf2]
    · rw [if_neg hk]
      by_cases he : k = k'
      · have hbt : (k == k') = true := beq_iff_eq.mpr he
        simp only [List.lookup, hbt]
      · have hbf2 : (k == k') = false := beq_eq_false_iff_ne.mpr he
        simp only [List.lookup, hbf2]
        exact setLast_lookup_other rest k₀ k v h

theorem kwsProj_append (k : String) (t₁ t₂ : List KwsOut) :
    kwsProj k (t₁ ++ t₂) = kwsProj k t₁ ++ kwsProj k t₂ :=
  List.filterMap_append _ _ _

theorem kwsProj_scored (k k₀ : String) (s : Rat) : kwsProj k [.scored k₀ s] = [] := rfl

theorem kwsProj_stopped (k : String) : kwsProj k [.stopped] = [] := rfl

theorem kwsProj_started (k : String) : kwsProj k [.started] = [none] := rfl

theorem kwsProj_fired_self (k : String) (s : Rat) (t : Int) :
    kwsProj k [.fired k s t] = [some t] := by
  simp [kwsProj]

theorem kwsProj_fired_other {k k₀ : String} (s : Rat) (t : Int) (h : k₀ ≠ k) :
    kwsProj k [.fired k₀ s t] = [] := by
  simp [kwsProj, h]

/-- `Chain'` is preserved by appending one element related to the last. -/
theorem chain_append_one {R : Option Int → Option Int → Prop} {l : List (Option Int)}
    {a : Option Int} (hch : List.Chain' R l)
    (hrel : ∀ x, l.getLast? = some x → R x a) : List.Chain' R (l ++ [a]) := by
  rw [List.chain'_append]
  refine ⟨hch, List.chain'_singleton a, ?_⟩
  intro x hx y hy
  rw [List.head?_cons] at hy
  cases hy
  exact hrel x hx

/-- Branch equations of `classifyKeyword`. -/
theorem classifyKeyword_eq_fire {cfg : OwwKwsConfig} {cb : Bool} {ld : List (String × Int)}
    {k₀ : String} {sc : Rat} {now : Int} (hth : thresholdOf cfg k₀ ≤ sc)
    (hfire : (match ld.lookup k₀ with
      | none => true
      | some last => decide (cfg.cooldownMs ≤ now - last)) = true) :
    classifyKeyword cfg cb ld k₀ sc now =
      (setLast ld k₀ now,
        [KwsOut.scored k₀ sc] ++ if cb then [KwsOut.fired k₀ sc now] else []) := by
  unfold classifyKeyword
  rw [if_pos hth]
  dsimp only
  rw [if_pos hfire]

theorem classifyKeyword_eq_cooldown {cfg : OwwKwsConfig} {cb : Bool}
    {ld : List (String × Int)} {k₀ : String} {sc : Rat} {now : Int}
    (hth : thresholdOf cfg k₀ ≤ sc)
    (hfire : ¬((match ld.lookup k₀ with
      | none => true
      | some last => decide (cfg.cooldownMs ≤ now - last)) = true)) :
    classifyKeyword cfg cb ld k₀ sc now = (ld, [KwsOut.scored k₀ sc]) := by
  unfold classifyKeyword
  rw [if_pos hth]
  dsimp only
  rw [if_neg hfire]

theorem classifyKeyword_eq_below {cfg : OwwKwsConfig} {cb : Bool}
    {ld : List (String × Int)} {k₀ : String} {sc : Rat} {now : Int}
    (hth : ¬(thresholdOf cfg k₀ ≤ sc)) :
    classifyKeyword cfg cb ld k₀ sc now = (ld, [KwsOut.scored k₀ sc]) := by
  unfold classifyKeyword
  rw [if_neg hth]

/-- The cooldown invariant of one keyword-loop iteration: the chain of
detections of any keyword `k` stays gapped, and when the callback is
set, the cooldown map entry of `k` is the time of its last projected
detection. -/
theorem classifyKeyword_chain (cfg : OwwKwsConfig) (k : String) (cb : Bool)
    (ld : List (String × Int)) (k₀ : String) (sc : Rat) (now : Int) (trace : List KwsOut)
    (hch : List.Chain' (cooldownGap cfg) (kwsProj k trace))
    (hinv : cb = true → ∀ t, (kwsProj k trace).getLast? = some (some t) →
      ld.lookup k = some t) :
    List.Chain' (cooldownGap cfg)
      (kwsProj k (trace ++ (classifyKeyword cfg cb ld k₀ sc now).2)) ∧
    (cb = true → ∀ t,
      (kwsProj k (trace ++ (classifyKeyword cfg cb ld k₀ sc now).2)).getLast? =
        some (some t) →
      (classifyKeyword cfg cb ld k₀ sc now).1.lookup k = some t) := by
  by_cases hth : thresholdOf cfg k₀ ≤ sc
  · by_cases hfire : (match ld.lookup k₀ with
      | none => true
      | some last => decide (cfg.cooldownMs ≤ now - last)) = true
    · rw [classifyKeyword_eq_fire hth hfire]
      cases cb with
      | false =>
        have houts : ([KwsOut.scored k₀ sc] ++
            if (false : Bool) then [KwsOut.fired k₀ sc now] else []) =
            [KwsOut.scored k₀ sc] := rfl
        rw [houts, kwsProj_append, kwsProj_scored, List.append_nil]
        exact ⟨hch, by intro h; cases h⟩
      | true =>
        have houts : ([KwsOut.scored k₀ sc] ++
            if (true : Bool) then [KwsOut.fired k₀ sc now] else []) =
            [KwsOut.scored k₀ sc, KwsOut.fired k₀ sc now] := rfl
        rw [houts]
        have hsplit : ([KwsOut.scored k₀ sc, KwsOut.fired k₀ sc now] : List KwsOut) =
            [KwsOut.scored k₀ sc] ++ [KwsOut.fired k₀ sc now] := rfl
        rw [hsplit, ← List.append_assoc, kwsProj_append, kwsProj_append, kwsProj_scored,
          List.append_nil]
        by_cases hk : k₀ = k
        · subst hk
          rw [kwsProj_fired_self]
          constructor
          · apply chain_append_one hch
            intro x hx t1 t2 h1 h2
            cases h2
            subst h1
            have hlk := hinv rfl t1 hx
            rw [hlk] at hfire
            simpa using of_decide_eq_true hfire
          · intro _ t ht
            simp [List.getLast?_append] at ht
            cases ht
            exact setLast_lookup_self ld k₀ now
        · rw [kwsProj_fired_other sc now hk, List.append_nil]
          refine ⟨hch, ?_⟩
          intro _ t ht
          rw [setLast_lookup_other ld k₀ k now (fun e => hk e.symm)]
          exact hinv rfl t ht
    · rw [classifyKeyword_eq_cooldown hth hfire, kwsProj_append, kwsProj_scored,
        List.append_nil]
      exact ⟨hch, fun hcb t ht => hinv hcb t ht⟩
  · rw [classifyKeyword_eq_below hth, kwsProj_append, kwsProj_scored, List.append_nil]
    exact ⟨hch, fun hcb t ht => hinv hcb t ht⟩

theorem classifyStep_chain (cfg : OwwKwsConfig) (k : String) (cb : Bool) :
    ∀ (obs : List (String × Rat × Int)) (ld : List (String × Int)) (trace : List KwsOut),
    List.Chain' (cooldownGap cfg) (kwsProj k trace) →
    (cb = true → ∀ t, (kwsProj k trace).getLast? = some (some t) →
      ld.lookup k = some t) →
    List.Chain' (cooldownGap cfg)
      (kwsProj k (trace ++ (classifyStep cfg cb obs ld).2)) ∧
    (cb = true → ∀ t,
      (kwsProj k (trace ++ (classifyStep cfg cb obs ld).2)).getLast? = some (some t) →
      (classifyStep cfg cb obs ld).1.lookup k = some t)
  | [], ld, trace, hch, hinv => by
    unfold classifyStep
    rw [List.append_nil]
    exact ⟨hch, hinv⟩
  | (k₀, sc, now) :: rest, ld, trace, hch, hinv => by
    have h1 := classifyKeyword_chain cfg k cb ld k₀ sc now trace hch hinv
    have h2 := classifyStep_chain cfg k cb rest (classifyKeyword cfg cb ld k₀ sc now).1
      (trace ++ (classifyKeyword cfg cb ld k₀ sc now).2) h1.1 h1.2
    unfold classifyStep
    rw [← List.append_assoc]
    exact h2

theorem kwsStep_chain (cfg : OwwKwsConfig) (k : String) (st : OwwKwsState) (i : KwsIn)
    (trace : List KwsOut)
    (hch : List.Chain' (cooldownGap cfg) (kwsProj k trace))
    (hinv : st.callbackSet = true → ∀ t,
      (kwsProj k trace).getLast? = some (some t) → st.lastDetection.lookup k = some t) :
    List.Chain' (cooldownGap cfg) (kwsProj k (trace ++ (kwsStep cfg st i).2)) ∧
    ((kwsStep cfg st i).1.callbackSet = true → ∀ t,
      (kwsProj k (trace ++ (kwsStep cfg st i).2)).getLast? = some (some t) →
      (kwsStep cfg st i).1.lastDetection.lookup k = some t) := by
  cases i with
  | start =>
    unfold kwsStep
    rw [kwsProj_append, kwsProj_started]
    constructor
    · rw [List.chain'_append]
      refine ⟨hch, List.chain'_singleton _, ?_⟩
      intro x _ y hy
      rw [List.head?_cons] at hy
      cases hy
      intro t1 t2 _ h2
      cases h2
    · intro _ t ht
      rw [List.getLast?_append] at ht
      simp at ht
  | stop =>
    unfold kwsStep
    rw [kwsProj_append, kwsProj_stopped, List.append_nil]
    exact ⟨hch, by intro h; cases h⟩
  | classify obs =>
    unfold kwsStep
    exact classifyStep_chain cfg k st.callbackSet obs st.lastDetection trace hch hinv

theorem kwsRunFrom_chain (cfg : OwwKwsConfig) (k : String) :
    ∀ (ins : List KwsIn) (st : OwwKwsState) (trace : List KwsOut),
    List.Chain' (cooldownGap cfg) (kwsProj k trace) →
    (st.callbackSet = true → ∀ t,
      (kwsProj k trace).getLast? = some (some t) → st.lastDetection.lookup k = some t) →
    List.Chain' (cooldownGap cfg) (kwsProj k (trace ++ (kwsRunFrom cfg st ins).2))
  | [], st, trace, hch, _ => by
    unfold kwsRunFrom
    rw [List.append_nil]
    exact hch
  | i :: ins, st, trace, hch, hinv => by
    have h1 := kwsStep_chain cfg k st i trace hch hinv
    have h2 := kwsRunFrom_chain cfg k ins (kwsStep cfg st i).1
      (trace ++ (kwsStep cfg st i).2) h1.1 h1.2
    unfold kwsRunFrom
    rw [← List.append_assoc]
    exact h2

theorem fired_mem_classifyKeyword {cfg : OwwKwsConfig} {cb : Bool}
    {ld : List (String × Int)} {k₀ kf : String} {sc sf : Rat} {now tf : Int}
    (h : KwsOut.fired kf sf tf ∈ (classifyKeyword cfg cb ld k₀ sc now).2) :
    thresholdOf cfg kf ≤ sf := by
  by_cases hth : thresholdOf cfg k₀ ≤ sc
  · by_cases hfire : (match ld.lookup k₀ with
      | none => true
      | some last => decide (cfg.cooldownMs ≤ now - last)) = true
    · rw [classifyKeyword_eq_fire hth hfire] at h
      cases cb with
      | false => simp at h
      | true =>
        simp only [List.mem_append, List.mem_singleton] at h
        rcases h with h | h
        · cases h
        · have : KwsOut.fired kf sf tf = KwsOut.fired k₀ sc now := by simpa using h
          cases this
          exact hth
    · rw [classifyKeyword_eq_cooldown hth hfire] at h
      simp at h
  · rw [classifyKeyword_eq_below hth] at h
    simp at h

theorem fired_mem_classifyStep {cfg : OwwKwsConfig} {cb : Bool} {kf : String}
    {sf : Rat} {tf : Int} :
    ∀ {obs : List (String × Rat × Int)} {ld : List (String × Int)},
    KwsOut.fired kf sf tf ∈ (classifyStep cfg cb obs ld).2 → thresholdOf cfg kf ≤ sf
  | [], _, h => by simp [classifyStep] at h
  | (k₀, sc, now) :: rest, ld, h => by
    unfold classifyStep at h
    rcases List.mem_append.mp h with h | h
    · exact fired_mem_classifyKeyword h
    · exact fired_mem_classifyStep h

theorem fired_mem_kwsRunFrom {cfg : OwwKwsConfig} {kf : String} {sf : Rat} {tf : Int} :
    ∀ {ins : List KwsIn} {st : OwwKwsState},
    KwsOut.fired kf sf tf ∈ (kwsRunFrom cfg st ins).2 → thresholdOf cfg kf ≤ sf
  | [], _, h => by simp [kwsRunFrom] at h
  | i :: ins, st, h => by
    unfold kwsRunFrom at h
    rcases List.mem_append.mp h with h | h
    · cases i with
      | start => simp [kwsStep] at h
      | stop => simp [kwsStep] at h
      | classify obs => exact fired_mem_classifyStep h
    · exact fired_mem_kwsRunFrom h

theorem scored_mem_classifyStep (cfg : OwwKwsConfig) (cb : Bool) :
    ∀ (obs : List (String × Rat × Int)) (ld : List (String × Int)),
    ∀ e ∈ obs, KwsOut.scored e.1 e.2.1 ∈ (classifyStep cfg cb obs ld).2
  | [], _, e, he => by cases he
  | (k₀, sc, now) :: rest, ld, e, he => by
    unfold classifyStep
    rcases List.mem_cons.mp he with rfl | he'
    · apply List.mem_append_left
      unfold classifyKeyword
      by_cases hth : thresholdOf cfg k₀ ≤ sc
      · rw [if_pos hth]
        dsimp only
        split
        · exact List.mem_append_left _ (List.mem_singleton_self _)
        · exact List.mem_singleton_self _
      · rw [if_neg hth]
        exact List.mem_singleton_self _
    · exact List.mem_append_right _ (scored_mem_classifyStep cfg cb rest _ e he')

/-- Counterexample to claim C6 as stated: `start()` clears the
`lastDetection` cooldown map, so after a `stop()` / `start()` cycle
(exactly what `stopListening` / `startListening` do) the same keyword
fires again 100 ms after its previous firing with the default
`cooldownMs = 1500`: the run below emits two detection callbacks for
"open" at times 1000 and 1100. -/
theorem kws_cooldown_counterexample :
    (kwsRun (OwwKwsConfig.ofOptions ⟨none, none, none⟩)
      [.start, .classify [("open", 1, 1000)], .stop, .start,
       .classify [("open", 1, 1100)]]).2 =
    [.started, .scored "open" 1, .fired "open" 1 1000, .stopped, .started,
     .scored "open" 1, .fired "open" 1 1100] ∧
    ((1100 : Int) - 1000 < (OwwKwsConfig.ofOptions ⟨none, none, none⟩).cooldownMs) := by
  decide

/-- Claim C6 (amended): in every run of the KWS engine, (1) adjacent
detection callbacks of the same keyword with no intervening `start()` —
a `start()` clears the per-keyword cooldown map — are at least
`cooldownMs` apart; (2) the callback fires only for scores at or above
the keyword's configured threshold; (3) the raw score of every keyword
is reported to the `onScore` observer on every classification round
regardless of threshold; (4) `cooldownMs` defaults to 1500 ms. -/
theorem kws_cooldown_threshold_scores (cfg : OwwKwsConfig) :
    (∀ (ins : List KwsIn) (k : String),
      List.Chain' (cooldownGap cfg) (kwsProj k (kwsRun cfg ins).2)) ∧
    (∀ (ins : List KwsIn) (k : String) (sc : Rat) (t : Int),
      KwsOut.fired k sc t ∈ (kwsRun cfg ins).2 → thresholdOf cfg k ≤ sc) ∧
    (∀ (cb : Bool) (obs : List (String × Rat × Int)) (ld : List (String × Int)),
      ∀ e ∈ obs, KwsOut.scored e.1 e.2.1 ∈ (classifyStep cfg cb obs ld).2) ∧
    (OwwKwsConfig.ofOptions ⟨none, none, none⟩).cooldownMs = 1500 := by
  refine ⟨?_, ?_, ?_, rfl⟩
  · intro ins k
    have := kwsRunFrom_chain cfg k ins ⟨false, false, []⟩ [] List.chain'_nil
      (by intro h; cases h)
    simpa [kwsRun] using this
  · intro ins k sc t h
    exact fired_mem_kwsRunFrom h
  · intro cb obs ld e he
    exact scored_mem_classifyStep cfg cb obs ld e he

/-! ## Engine state machine (`engine.ts`)

The engine is modeled as an explicit transition system.  Inputs are the
public API calls and the callbacks of the collaborators (KWS keyword
callback, VAD speech-start/speech-end callbacks, the capture timer, the
completion of the awaited ASR `transcribe` promise, and the completion
of the awaited `highlightMs` delay inside `proposeAndExecute`).  The
two `await` points are modeled as suspended continuations stored in
`pending`; an `asrDone` / `highlightDone` input resumes one of them.
The engine is modeled in the `audioPipeline = null` configuration (the
pipeline is an external collaborator; without it `capturedAudio` stays
null and the ASR input is the empty buffer — the transcript is supplied
by the environment with the `asrDone` input, so no observable behavior
is lost).  `buildDomIndex` reads the live DOM, an external collaborator:
the index it returns is supplied by the environment on the inputs that
trigger it.  `vadArmed` / `captureTimeout` record the request id
captured in the closures passed to `vadEngine.startDetection` and
`setTimeout`; `stopDetection` / `clearTimeout` disarm them, after which
the callback can no longer fire (a JavaScript timer also fires at most
once, and a replaced timer field leaves a dangling timer whose
`finishCapture` call is dropped by its request-id guard, so the
single-slot model is observationally equivalent). -/

inductive EngineState where
  | LISTENING_OFF
  | LISTENING_ON
  | CAPTURING_TARGET
  | TRANSCRIBING
  | RESOLVING_TARGET
  | AWAITING_CONFIRMATION
  | EXECUTING
  | ERROR
deriving DecidableEq

/-- Embedding of `DomIndexResult` from `dom-indexer.ts`. -/
structure DomIndexResult where
  targets : List DomTarget
  scope : Scope
deriving DecidableEq

/-- Embedding of `determineAction` from `action-executor.ts`. -/
def determineAction (target : DomTarget) : ActionType :=
  let tag := target.element.tagName
  let role := target.element.role
  if tag = "BUTTON" ∨ tag = "A" ∨ role = some "button" ∨ role = some "link" then
    .click
  else if role = some "tab" ∨ role = some "menuitem" ∨ role = some "option" ∨
      tag = "SUMMARY" then
    .activate
  else if tag = "INPUT" ∨ tag = "SELECT" ∨ tag = "TEXTAREA" then
    .focus
  else
    .scroll_focus

/-- A suspended `await`: either `await this.asrEngine.transcribe(...)`
inside `startTranscription`, or `await this.delay(highlightMs)` inside
`proposeAndExecute` (which retains the target in its closure). -/
inductive PendingCont where
  | asr (requestId : Nat)
  | highlight (requestId : Nat) (target : DomTarget)
deriving DecidableEq

/-- The engine's mutable fields (the ones claims depend on), plus the
request counter of `nextRequestId` and the suspended continuations. -/
structure EngineSt where
  state : EngineState
  requestCounter : Nat
  currentRequestId : Option Nat
  currentIndex : Option DomIndexResult
  captureTimeout : Option Nat
  vadArmed : Option Nat
  kwsRunning : Bool
  pending : List PendingCont
  config : VoicePageConfig
deriving DecidableEq

/-- Inputs of the engine model: public API calls and collaborator
callbacks.  `asrDone i result` resumes the `i`-th pending continuation
when it is an ASR suspension (the environment chooses which in-flight
promise settles, and whether it resolves with a transcript or rejects);
`highlightDone i execError` likewise resumes a highlight-delay
suspension, carrying the outcome of the subsequent `executeAction` call
(`none` = ok, `some msg` = the caught exception's message). -/
inductive EngineIn where
  | startListening
  | stopListening
  | cancel
  | keyword (k : Keyword) (confidence : Rat) (dom : DomIndexResult)
  | triggerOpen (dom : DomIndexResult)
  | vadSpeechStart
  | vadSpeechEnd
  | captureTimeoutFire
  | asrDone (i : Nat) (result : Except String String)
  | highlightDone (i : Nat) (execError : Option String)
  | simulateTranscript (t : String) (dom : DomIndexResult)
  | selectTarget (targetId : String)
  | destroy

/-- `returnToListening`: clear the current request and go back to
`LISTENING_ON` unless listening is off. -/
def returnToListening (s : EngineSt) : EngineSt :=
  let s1 := { s with currentRequestId := none }
  if s1.state ≠ .LISTENING_OFF then { s1 with state := .LISTENING_ON } else s1

/-- `startTranscription` up to its `await transcribe`: guard the request
id, enter `TRANSCRIBING`, emit `TranscriptionStarted`, suspend. -/
def startTranscription (rid : Nat) (s : EngineSt) : EngineSt × List VPEvent :=
  if s.currentRequestId ≠ some rid then (s, [])
  else
    ({ s with state := .TRANSCRIBING, pending := s.pending ++ [.asr rid] },
      [.TranscriptionStarted rid])

/-- `finishCapture`: drop unless `rid` is still current; clear the
timer, stop VAD, emit `CaptureEnded`; on stop/cancel return to
listening, otherwise start transcription. -/
def finishCapture (rid : Nat) (reason : CaptureReason) (s : EngineSt) :
    EngineSt × List VPEvent :=
  if s.currentRequestId ≠ some rid then (s, [])
  else
    let s1 := { s with captureTimeout := none, vadArmed := none }
    match reason with
    | .stop => (returnToListening s1, [.CaptureEnded rid reason])
    | .cancel => (returnToListening s1, [.CaptureEnded rid reason])
    | _ =>
      let p := startTranscription rid s1
      (p.1, .CaptureEnded rid reason :: p.2)

/-- `cancelCurrentRequest`: finish the capture when one is in flight
(state `CAPTURING_TARGET` or `TRANSCRIBING`), then clear the timer, stop
VAD and forget the current request. -/
def cancelCurrentRequest (reason : CaptureReason) (s : EngineSt) :
    EngineSt × List VPEvent :=
  let p :=
    match s.currentRequestId with
    | some rid =>
      if s.state = EngineState.CAPTURING_TARGET ∨ s.state = EngineState.TRANSCRIBING then
        finishCapture rid reason s
      else (s, [])
    | none => (s, [])
  ({ p.1 with captureTimeout := none, vadArmed := none, currentRequestId := none }, p.2)

/-- `startCaptureFlow`: mint a request id, build the index, enter
`CAPTURING_TARGET`, emit `CaptureStarted` and `TargetIndexBuilt`, start
VAD detection and arm the capture timer. -/
def startCaptureFlow (dom : DomIndexResult) (s : EngineSt) : EngineSt × List VPEvent :=
  let rid := s.requestCounter + 1
  ({ s with
      requestCounter := rid
      currentRequestId := some rid
      currentIndex := some dom
      state := .CAPTURING_TARGET
      vadArmed := some rid
      captureTimeout := some rid },
    [.CaptureStarted rid, .TargetIndexBuilt rid dom.targets.length dom.scope])

/-- `proposeAndExecute` up to its `await delay(highlightMs)`: emit
`ActionProposed` and suspend with the target in the closure. -/
def proposeStart (rid : Nat) (tgt : DomTarget) (s : EngineSt) : EngineSt × List VPEvent :=
  ({ s with pending := s.pending ++ [.highlight rid tgt] },
    [.ActionProposed rid (determineAction tgt) tgt.id tgt.risk])

/-- `resolveAndExecute`: guard the request id, enter `RESOLVING_TARGET`,
run the matcher on the current index, then branch on the result status.
In the `unique` case the source reads `result.matches[0]`; `resolveTarget`
never yields an empty match list with status `unique`, so the `[]`
sub-branch is unreachable. -/
def resolveAndExecute (rid : Nat) (transcript : String) (s : EngineSt) :
    EngineSt × List VPEvent :=
  if s.currentRequestId ≠ some rid then (s, [])
  else
    let s1 := { s with state := .RESOLVING_TARGET }
    let targets := (s1.currentIndex.map DomIndexResult.targets).getD []
    let result := resolveTarget transcript targets s1.config
    match result.status with
    | .unique =>
      match result.matchList with
      | [] => (s1, [])
      | m :: _ =>
        let p := proposeStart rid m.target { s1 with state := .EXECUTING }
        (p.1, .TargetResolved rid m.target.id m.target.normalizedLabel m.type :: p.2)
    | .ambiguous =>
      ({ s1 with state := .ERROR },
        [.TargetResolutionFailed rid .ambiguous
          (some (.candidates (result.matchList.map
            (fun m => (m.target.id, m.target.normalizedLabel, m.score)))))])
    | .no_match =>
      (returnToListening { s1 with state := .ERROR },
        [.TargetResolutionFailed rid .no_match none])
    | .misconfiguration =>
      (returnToListening { s1 with state := .ERROR },
        [.TargetResolutionFailed rid .misconfiguration
          (result.details.map .resolution)])

/-- `cancel` (public API): abort the in-flight request, return to
`LISTENING_ON` unless listening is off. -/
def cancelApi (s : EngineSt) : EngineSt × List VPEvent :=
  let p := cancelCurrentRequest .cancel s
  (if p.1.state ≠ .LISTENING_OFF then { p.1 with state := .LISTENING_ON } else p.1, p.2)

/-- `handleKeyword`: emit `KeywordDetected`, then dispatch on the
keyword. -/
def handleKeyword (k : Keyword) (conf : Rat) (dom : DomIndexResult) (s : EngineSt) :
    EngineSt × List VPEvent :=
  let ev := VPEvent.KeywordDetected k (some conf)
  match k with
  | .kwOpen =>
    if s.state = .LISTENING_ON then
      let p := startCaptureFlow dom s
      (p.1, ev :: p.2)
    else (s, [ev])
  | .kwClick =>
    if s.state = .LISTENING_ON then
      let p := startCaptureFlow dom s
      (p.1, ev :: p.2)
    else (s, [ev])
  | .kwStop =>
    let p := cancelCurrentRequest .stop s
    ((if p.1.state ≠ .LISTENING_OFF then { p.1 with state := .LISTENING_ON } else p.1),
      ev :: p.2)
  | .kwCancel =>
    let p := cancelApi s
    (p.1, ev :: p.2)
  | .kwHelp => (s, [ev])

/-- `startListening`: no-op unless `LISTENING_OFF`; enter
`LISTENING_ON`, emit, start the KWS engine (wire its callback). -/
def startListeningCall (s : EngineSt) : EngineSt × List VPEvent :=
  if s.state ≠ .LISTENING_OFF then (s, [])
  else ({ s with state := .LISTENING_ON, kwsRunning := true }, [.ListeningChanged true])

/-- `stopListening`: abort any in-flight request, stop the KWS engine,
enter `LISTENING_OFF`, emit. -/
def stopListeningCall (s : EngineSt) : EngineSt × List VPEvent :=
  let p := cancelCurrentRequest .stop s
  ({ p.1 with kwsRunning := false, state := .LISTENING_OFF },
    p.2 ++ [.ListeningChanged false])

/-- `simulateTranscript`: no-op when listening is off; mint a request
id, build the index, emit `TargetIndexBuilt` and `TranscriptReady`, then
resolve. -/
def simulateTranscriptCall (t : String) (dom : DomIndexResult) (s : EngineSt) :
    EngineSt × List VPEvent :=
  if s.state = .LISTENING_OFF then (s, [])
  else
    let rid := s.requestCounter + 1
    let s1 := { s with
        requestCounter := rid
        currentRequestId := some rid
        state := .RESOLVING_TARGET
        currentIndex := some dom }
    let p := resolveAndExecute rid t s1
    (p.1, [VPEvent.TargetIndexBuilt rid dom.targets.length dom.scope,
      VPEvent.TranscriptReady rid t] ++ p.2)

/-- `selectDisambiguationTarget`: no-op without an index or when the id
is not in it; otherwise reuse the current request id (or mint a fresh
one), enter `EXECUTING` and propose-and-execute the chosen target. -/
def selectDisambiguationTarget (targetId : String) (s : EngineSt) :
    EngineSt × List VPEvent :=
  match s.currentIndex with
  | none => (s, [])
  | some idx =>
    match idx.targets.find? (fun t => t.id == targetId) with
    | none => (s, [])
    | some tgt =>
      match s.currentRequestId with
      | some rid => proposeStart rid tgt { s with state := .EXECUTING }
      | none =>
        let rid := s.requestCounter + 1
        proposeStart rid tgt { s with requestCounter := rid, state := .EXECUTING }

/-- Resumption of `startTranscription` after `await transcribe`.  A
rejected promise lands in the `catch` of `startTranscription`, which
emits `ASR_FAILED` with the engine's current request id (not the
suspended one) and bounces to `ERROR` then back to listening, with no
request-id guard.  A resolved promise is dropped when the request was
retired; otherwise `TranscriptReady` is emitted and an empty transcript
(`!transcript.trim()`) aborts with `NO_SPEECH_DETECTED`. -/
def asrResume (rid : Nat) (result : Except String String) (s : EngineSt) :
    EngineSt × List VPEvent :=
  match result with
  | .error _ =>
    (returnToListening { s with state := .ERROR },
      [.EngineError s.currentRequestId .ASR_FAILED "ASR transcription failed"])
  | .ok t =>
    if s.currentRequestId ≠ some rid then (s, [])
    else
      if jsTrim t = "" then
        (returnToListening { s with state := .ERROR },
          [.TranscriptReady rid t,
            .EngineError s.currentRequestId .NO_SPEECH_DETECTED
              "No speech detected in captured audio"])
      else
        let p := resolveAndExecute rid t s
        (p.1, .TranscriptReady rid t :: p.2)

/-- Resumption of `proposeAndExecute` after `await delay(highlightMs)`.
When the request is still current the action is executed and
`ActionExecuted` (plus `EXECUTION_FAILED` on error) is emitted; either
way the awaiting caller (`resolveAndExecute` or
`selectDisambiguationTarget`) then runs `returnToListening`. -/
def highlightResume (rid : Nat) (tgt : DomTarget) (execError : Option String)
    (s : EngineSt) : EngineSt × List VPEvent :=
  if s.currentRequestId = some rid then
    (returnToListening s,
      [VPEvent.ActionExecuted rid (determineAction tgt) tgt.id execError.isNone
        execError] ++
      (match execError with
        | some msg => [VPEvent.EngineError s.currentRequestId .EXECUTION_FAILED msg]
        | none => []))
  else
    (returnToListening s, [])

/-- `destroy`: abort any in-flight request, stop KWS, destroy the
engines (releasing the VAD callbacks).  The engine state field itself is
not reset by the source. -/
def destroyCall (s : EngineSt) : EngineSt × List VPEvent :=
  let p := cancelCurrentRequest .stop s
  ({ p.1 with kwsRunning := false, vadArmed := none }, p.2)

/-- One transition of the engine.  Keyword callbacks are delivered only
while the KWS engine is started; VAD / timer callbacks only while armed
(and they carry the request id captured in their closure);
`asrDone` / `highlightDone` resume a matching pending continuation. -/
def engineStep (s : EngineSt) : EngineIn → EngineSt × List VPEvent
  | .startListening => startListeningCall s
  | .stopListening => stopListeningCall s
  | .cancel => cancelApi s
  | .keyword k conf dom => if s.kwsRunning then handleKeyword k conf dom s else (s, [])
  | .triggerOpen dom =>
    if s.state = .LISTENING_ON then handleKeyword .kwOpen 1 dom s else (s, [])
  | .vadSpeechStart => (s, [])
  | .vadSpeechEnd =>
    match s.vadArmed with
    | some rid => finishCapture rid .vad s
    | none => (s, [])
  | .captureTimeoutFire =>
    match s.captureTimeout with
    | some rid => finishCapture rid .timeout s
    | none => (s, [])
  | .asrDone i result =>
    match s.pending[i]? with
    | some (.asr rid) => asrResume rid result { s with pending := s.pending.eraseIdx i }
    | _ => (s, [])
  | .highlightDone i execError =>
    match s.pending[i]? with
    | some (.highlight rid tgt) =>
      highlightResume rid tgt execError { s with pending := s.pending.eraseIdx i }
    | _ => (s, [])
  | .simulateTranscript t dom => simulateTranscriptCall t dom s
  | .selectTarget targetId => selectDisambiguationTarget targetId s
  | .destroy => destroyCall s

/-- The engine's initial state (fresh `VoicePageEngine`). -/
def initialEngine (cfg : VoicePageConfig) : EngineSt :=
  { state := .LISTENING_OFF, requestCounter := 0, currentRequestId := none,
    currentIndex := none, captureTimeout := none, vadArmed := none,
    kwsRunning := false, pending := [], config := cfg }

/-- A run of the engine from a state, collecting emitted events. -/
def engineRunFrom (s : EngineSt) : List EngineIn → EngineSt × List VPEvent
  | [] => (s, [])
  | i :: ins =>
    let p1 := engineStep s i
    let p2 := engineRunFrom p1.1 ins
    (p2.1, p1.2 ++ p2.2)

/-- A run of the engine from the initial state. -/
def engineRun (cfg : VoicePageConfig) (ins : List EngineIn) : EngineSt × List VPEvent :=
  engineRunFrom (initialEngine cfg) ins

/-- Evidence for claim C1 (a bug in the code): on an index whose only
target carries `risk = high`, a unique resolution goes straight to
`EXECUTING`, emits `ActionProposed` and — after the highlight delay —
`ActionExecuted`, and never emits `ConfirmationRequired` or enters
`AWAITING_CONFIRMATION`.  (The engine has no `confirmAction` /
`cancelConfirmation` methods at all, although the repository's type
declarations, UI overlay and engine tests require them; the inputs of
the model therefore have no confirmation calls to offer.) -/
theorem engine_high_risk_executes_without_confirmation :
    (engineRun DEFAULT_CONFIG
      [.startListening,
       .simulateTranscript "delete account"
         ⟨[⟨"vp-risk-1", ⟨"BUTTON", none⟩, "Delete Account", "delete account", [],
           some .high⟩], .page⟩,
       .highlightDone 0 none]).2 =
    [.ListeningChanged true,
     .TargetIndexBuilt 1 1 .page,
     .TranscriptReady 1 "delete account",
     .TargetResolved 1 "vp-risk-1" "delete account" .exact,
     .ActionProposed 1 .click "vp-risk-1" (some .high),
     .ActionExecuted 1 .click "vp-risk-1" true none] ∧
    (engineRunFrom (initialEngine DEFAULT_CONFIG)
      [.startListening,
       .simulateTranscript "delete account"
         ⟨[⟨"vp-risk-1", ⟨"BUTTON", none⟩, "Delete Account", "delete account", [],
           some .high⟩], .page⟩]).1.state = .EXECUTING ∧
    (engineRunFrom (initialEngine DEFAULT_CONFIG)
      [.startListening,
       .simulateTranscript "delete account"
         ⟨[⟨"vp-risk-1", ⟨"BUTTON", none⟩, "Delete Account", "delete account", [],
           some .high⟩], .page⟩]).1.state ≠ .AWAITING_CONFIRMATION := by
  decide

/-- Claim C10: `selectDisambiguationTarget` is a no-op — same state, no
events (hence no action) — when the engine has no current index or no
target of the current index has the given id. -/
theorem selectDisambiguationTarget_noop (s : EngineSt) (targetId : String)
    (h : s.currentIndex = none ∨
      ∀ idx, s.currentIndex = some idx →
        idx.targets.find? (fun t => t.id == targetId) = none) :
    engineStep s (.selectTarget targetId) = (s, []) := by
  show selectDisambiguationTarget targetId s = (s, [])
  unfold selectDisambiguationTarget
  rcases h with h | h
  · rw [h]
  · cases hidx : s.currentIndex with
    | none => rfl
    | some idx =>
      dsimp only
      rw [h idx hidx]

/-- Witness for C10: the fresh engine has no index, so selecting any id
does nothing. -/
theorem selectDisambiguationTarget_noop_witness :
    engineStep (initialEngine DEFAULT_CONFIG) (.selectTarget "vp-1") =
      (initialEngine DEFAULT_CONFIG, []) :=
  selectDisambiguationTarget_noop (initialEngine DEFAULT_CONFIG) "vp-1" (Or.inl rfl)

/-! ## Claim C2: the per-request event regular expression

`eventReqId` reads the request id an event carries (`EngineError` can
carry one); `reqEvents` is the per-request projection the claim
quantifies over. -/

def eventReqId : VPEvent → Option Nat
  | .ListeningChanged _ => none
  | .KeywordDetected _ _ => none
  | .CaptureStarted r => some r
  | .CaptureEnded r _ => some r
  | .TranscriptionStarted r => some r
  | .TranscriptReady r _ => some r
  | .TargetIndexBuilt r _ _ => some r
  | .TargetResolved r _ _ _ => some r
  | .TargetResolutionFailed r _ _ => some r
  | .ActionProposed r _ _ _ => some r
  | .ConfirmationRequired r _ _ _ => some r
  | .ActionExecuted r _ _ _ _ => some r
  | .EngineError r _ _ => r

/-- All events carrying a given request id, in emission order. -/
def reqEvents (r : Nat) (tr : List VPEvent) : List VPEvent :=
  tr.filter (fun e => eventReqId e == some r)

/-- States of the automaton of the claimed regular expression
`(CaptureStarted CaptureEnded)? (TranscriptionStarted TranscriptReady)?
TargetIndexBuilt (TargetResolved ActionProposed (ConfirmationRequired
(ActionExecuted|-))? ActionExecuted | TargetResolutionFailed)`
(prefix-closed: a trace is a prefix of the language iff the automaton
can read it). -/
inductive C2ClaimState where
  | q0
  | q1
  | q2
  | q3
  | q4
  | q5
  | q6
  | q7
  | q8
  | q9
  | qF
deriving DecidableEq

/-- Transition function of the claimed regular expression (on event
kinds). -/
def c2ClaimStep : C2ClaimState → VPEvent → Option C2ClaimState
  | .q0, .CaptureStarted _ => some .q1
  | .q0, .TranscriptionStarted _ => some .q3
  | .q0, .TargetIndexBuilt _ _ _ => some .q5
  | .q1, .CaptureEnded _ _ => some .q2
  | .q2, .TranscriptionStarted _ => some .q3
  | .q2, .TargetIndexBuilt _ _ _ => some .q5
  | .q3, .TranscriptReady _ _ => some .q4
  | .q4, .TargetIndexBuilt _ _ _ => some .q5
  | .q5, .TargetResolved _ _ _ _ => some .q6
  | .q5, .TargetResolutionFailed _ _ _ => some .qF
  | .q6, .ActionProposed _ _ _ _ => some .q7
  | .q7, .ConfirmationRequired _ _ _ _ => some .q8
  | .q7, .ActionExecuted _ _ _ _ _ => some .qF
  | .q8, .ActionExecuted _ _ _ _ _ => some .q9
  | .q9, .ActionExecuted _ _ _ _ _ => some .qF
  | _, _ => none

/-- Run of the claimed-regex automaton. -/
def c2ClaimRun (st : C2ClaimState) : List VPEvent → Option C2ClaimState
  | [] => some st
  | e :: es =>
    match c2ClaimStep st e with
    | some st1 => c2ClaimRun st1 es
    | none => none

/-- Counterexample to claim C2 as stated: on the simulate-transcript
path the code emits `TargetIndexBuilt` and then `TranscriptReady` —
the claimed expression requires `TranscriptReady` (paired with
`TranscriptionStarted`) before `TargetIndexBuilt` and admits only
`TargetResolved` / `TargetResolutionFailed` after it — so already this
two-call run produces a per-request sequence outside the prefix
language.  (The real keyword path likewise emits `TargetIndexBuilt`
between `CaptureStarted` and `CaptureEnded`.) -/
theorem engine_request_regex_counterexample :
    reqEvents 1 (engineRun DEFAULT_CONFIG
      [.startListening, .simulateTranscript "x" ⟨[], .page⟩]).2 =
    [.TargetIndexBuilt 1 0 .page, .TranscriptReady 1 "x",
     .TargetResolutionFailed 1 .no_match none] ∧
    c2ClaimRun .q0 (reqEvents 1 (engineRun DEFAULT_CONFIG
      [.startListening, .simulateTranscript "x" ⟨[], .page⟩]).2) = none := by
  decide

/-! ## Claim C2 (amended): the actual per-request event order

The code's per-request lifecycle differs from the claimed expression:
`TargetIndexBuilt` is emitted right after `CaptureStarted` (before
`CaptureEnded`), the simulate path emits `TargetIndexBuilt` then
`TranscriptReady` with no transcription pair, a cancel/stop landing
during transcription emits a second `CaptureEnded`, a
`selectDisambiguationTarget` call can inject `ActionProposed` (and on
resume `ActionExecuted`) while a request is current — after an
`ambiguous` failure, but also at any other point — or alone on a
freshly minted id, `EngineError` events can carry the current request
id, and `ConfirmationRequired` is never emitted.  The amended statement
projects a request's events onto the lifecycle kinds (everything but
`EngineError`, which the original expression does not mention) and says
the projection is always accepted by the automaton below: the backbone

`CaptureStarted TargetIndexBuilt
   (CaptureEnded(stop|cancel)
    | CaptureEnded(vad|timeout) TranscriptionStarted
        (CaptureEnded(stop|cancel)
         | TranscriptReady (TargetResolved | TargetResolutionFailed)?)?)?
 | TargetIndexBuilt TranscriptReady (TargetResolved | TargetResolutionFailed)?`

prefix-closed, interleaved with any number of `ActionProposed` and at
most one final `ActionExecuted`, which requires a preceding
`ActionProposed`; `ConfirmationRequired` has no transition. -/

inductive C2Bb where
  | b0
  | b1
  | b2
  | b3
  | b3t
  | b4
  | b5
  | b6
  | b7
  | bDead
deriving DecidableEq

/-- Automaton state of the amended expression: backbone position plus
whether an `ActionProposed` has been seen and whether the final
`ActionExecuted` has been seen. -/
structure C2AmState where
  bb : C2Bb
  ap : Bool
  ae : Bool
deriving DecidableEq

def amInit : C2AmState := ⟨.b0, false, false⟩

/-- Transition function of the amended expression. -/
def c2AmStep (st : C2AmState) (e : VPEvent) : Option C2AmState :=
  if st.ae then none
  else
    match e with
    | .CaptureStarted _ =>
      if st.bb = .b0 ∧ st.ap = false then some { st with bb := .b1 } else none
    | .TargetIndexBuilt _ _ _ =>
      match st.bb with
      | .b1 => some { st with bb := .b2 }
      | .b0 => if st.ap = false then some { st with bb := .b5 } else none
      | _ => none
    | .CaptureEnded _ reason =>
      match st.bb, reason with
      | .b2, .stop => some { st with bb := .bDead }
      | .b2, .cancel => some { st with bb := .bDead }
      | .b2, .vad => some { st with bb := .b3 }
      | .b2, .timeout => some { st with bb := .b3 }
      | .b3t, .stop => some { st with bb := .bDead }
      | .b3t, .cancel => some { st with bb := .bDead }
      | _, _ => none
    | .TranscriptionStarted _ =>
      match st.bb with
      | .b3 => some { st with bb := .b3t }
      | _ => none
    | .TranscriptReady _ _ =>
      match st.bb with
      | .b3t => some { st with bb := .b4 }
      | .b5 => some { st with bb := .b4 }
      | _ => none
    | .TargetResolved _ _ _ _ =>
      match st.bb with
      | .b4 => some { st with bb := .b6 }
      | _ => none
    | .TargetResolutionFailed _ _ _ =>
      match st.bb with
      | .b4 => some { st with bb := .b7 }
      | _ => none
    | .ActionProposed _ _ _ _ => some { st with ap := true }
    | .ActionExecuted _ _ _ _ _ => if st.ap then some { st with ae := true } else none
    | _ => none

/-- Run of the amended automaton. -/
def c2AmRun (st : C2AmState) : List VPEvent → Option C2AmState
  | [] => some st
  | e :: es =>
    match c2AmStep st e with
    | some st1 => c2AmRun st1 es
    | none => none

/-- The request id of a lifecycle event (`none` for `ListeningChanged`,
`KeywordDetected` and `EngineError`). -/
def lifecycleReqId : VPEvent → Option Nat
  | .CaptureStarted r => some r
  | .CaptureEnded r _ => some r
  | .TranscriptionStarted r => some r
  | .TranscriptReady r _ => some r
  | .TargetIndexBuilt r _ _ => some r
  | .TargetResolved r _ _ _ => some r
  | .TargetResolutionFailed r _ _ => some r
  | .ActionProposed r _ _ _ => some r
  | .ConfirmationRequired r _ _ _ => some r
  | .ActionExecuted r _ _ _ _ => some r
  | _ => none

/-- A request's lifecycle events, in emission order. -/
def projAm (r : Nat) (tr : List VPEvent) : List VPEvent :=
  tr.filter (fun e => lifecycleReqId e == some r)

def pendingRid : PendingCont → Nat
  | .asr r => r
  | .highlight r _ => r

/-- Relation between one request id and the machine, carried as the
induction invariant: freshness bounds, and what the machine's hold on
the request implies about the automaton state of its projection. -/
structure ReqRel (r : Nat) (s : EngineSt) (a : C2AmState) : Prop where
  unborn : s.requestCounter < r → a = amInit
  curLe : s.currentRequestId = some r → r ≤ s.requestCounter
  vadLe : s.vadArmed = some r → r ≤ s.requestCounter
  timerLe : s.captureTimeout = some r → r ≤ s.requestCounter
  pendLe : ∀ c ∈ s.pending, pendingRid c = r → r ≤ s.requestCounter
  aeFalse : s.currentRequestId = some r → a.ae = false
  capPhase : s.currentRequestId = some r → s.state = .CAPTURING_TARGET → a.bb = .b2
  transPhase : s.currentRequestId = some r → s.state = .TRANSCRIBING → a.bb = .b3t
  armPhase : s.currentRequestId = some r →
    (s.vadArmed = some r ∨ s.captureTimeout = some r) → a.bb = .b2
  asrPhase : s.currentRequestId = some r → PendingCont.asr r ∈ s.pending → a.bb = .b3t
  hlAp : s.currentRequestId = some r →
    (∃ tgt, PendingCont.highlight r tgt ∈ s.pending) → a.ap = true
  asrCount : s.pending.count (PendingCont.asr r) ≤ 1

/-- The run invariant: every request id's projection is accepted by the
amended automaton, landing in a state compatible with the machine. -/
def EngineInv (s : EngineSt) (tr : List VPEvent) : Prop :=
  ∀ r, ∃ a, c2AmRun amInit (projAm r tr) = some a ∧ ReqRel r s a

theorem c2AmRun_append (st : C2AmState) : ∀ (l₁ l₂ : List VPEvent),
    c2AmRun st (l₁ ++ l₂) =
      match c2AmRun st l₁ with
      | some st1 => c2AmRun st1 l₂
      | none => none
  | [], l₂ => rfl
  | e :: es, l₂ => by
    have hL : c2AmRun st ((e :: es) ++ l₂) =
        (match c2AmStep st e with
          | some st1 => c2AmRun st1 (es ++ l₂)
          | none => none) := rfl
    have hR : c2AmRun st (e :: es) =
        (match c2AmStep st e with
          | some st1 => c2AmRun st1 es
          | none => none) := rfl
    rw [hL, hR]
    cases c2AmStep st e with
    | none => rfl
    | some st1 => exact c2AmRun_append st1 es l₂

theorem projAm_append (r : Nat) (t₁ t₂ : List VPEvent) :
    projAm r (t₁ ++ t₂) = projAm r t₁ ++ projAm r t₂ := by
  unfold projAm
  exact List.filter_append t₁ t₂

theorem projAm_nil (r : Nat) : projAm r [] = [] := rfl

theorem projAm_cons (r : Nat) (e : VPEvent) (tr : List VPEvent) :
    projAm r (e :: tr) =
      if lifecycleReqId e == some r then e :: projAm r tr else projAm r tr := by
  unfold projAm
  rw [List.filter_cons]

/-- `returnToListening` in record form. -/
theorem returnToListening_eq (s : EngineSt) :
    returnToListening s =
      { s with
        currentRequestId := none
        state := if s.state = .LISTENING_OFF then .LISTENING_OFF else .LISTENING_ON } := by
  unfold returnToListening
  by_cases h : s.state = .LISTENING_OFF
  · rw [if_neg (by simp [h]), if_pos h]
    simp [h]
  · rw [if_pos (by simp [h]), if_neg h]

theorem count_append_one (l : List PendingCont) (c x : PendingCont) :
    (l ++ [c]).count x = l.count x + if c = x then 1 else 0 := by
  rw [List.count_append]
  by_cases h : c = x
  · simp [h, List.count_singleton]
  · simp only [List.count_singleton, List.count_nil, List.count_cons]
    have : ¬(x == c) = true := by
      rw [beq_iff_eq]
      exact fun e => h e.symm
    simp [this, h]

theorem count_eraseIdx_le (l : List PendingCont) (i : Nat) (x : PendingCont) :
    (l.eraseIdx i).count x ≤ l.count x :=
  (List.eraseIdx_sublist l i).count_le x

theorem count_eraseIdx_exact : ∀ (l : List PendingCont) (i : Nat) (x : PendingCont),
    l[i]? = some x → (l.eraseIdx i).count x + 1 = l.count x
  | [], i, x, h => by simp at h
  | c :: cs, 0, x, h => by
    rw [List.getElem?_cons_zero] at h
    cases h
    simp [List.eraseIdx, List.count_cons]
  | c :: cs, i + 1, x, h => by
    rw [List.getElem?_cons_succ] at h
    have := count_eraseIdx_exact cs i x h
    simp only [List.eraseIdx, List.count_cons]
    omega

theorem mem_of_getElem? {l : List PendingCont} {i : Nat} {x : PendingCont}
    (h : l[i]? = some x) : x ∈ l := by
  have hi : i < l.length := by
    by_contra hge
    rw [List.getElem?_eq_none (by omega)] at h
    cases h
  rw [List.getElem?_eq_getElem hi] at h
  cases h
  exact List.getElem_mem hi

theorem mem_eraseIdx {l : List PendingCont} {i : Nat} {x : PendingCont}
    (h : x ∈ l.eraseIdx i) : x ∈ l :=
  (List.eraseIdx_sublist l i).mem h

/-- A request the machine no longer holds (and that is not beyond the
counter) is compatible with any automaton state. -/
theorem ReqRel.notCurrent {r : Nat} {s : EngineSt} {a : C2AmState}
    (hle : r ≤ s.requestCounter) (hc : s.currentRequestId ≠ some r)
    (hcount : s.pending.count (PendingCont.asr r) ≤ 1) : ReqRel r s a :=
  ⟨fun h => absurd hle (by omega), fun h => absurd h hc, fun _ => hle, fun _ => hle,
    fun _ _ _ => hle, fun h => absurd h hc, fun h => absurd h hc, fun h => absurd h hc,
    fun h => absurd h hc, fun h => absurd h hc, fun h => absurd h hc, hcount⟩

/-- A request beyond the counter that the machine does not reference is
in the initial automaton state. -/
theorem ReqRel.freshMk {r : Nat} {s : EngineSt} {a : C2AmState}
    (hgt : s.requestCounter < r) (ha : a = amInit) (hc : s.currentRequestId ≠ some r)
    (hv : s.vadArmed ≠ some r) (ht : s.captureTimeout ≠ some r)
    (hp : ∀ c ∈ s.pending, pendingRid c ≠ r)
    (hcount : s.pending.count (PendingCont.asr r) ≤ 1) : ReqRel r s a :=
  ⟨fun _ => ha, fun h => absurd h hc, fun h => absurd h hv, fun h => absurd h ht,
    fun c hc1 hc2 => absurd hc2 (hp c hc1), fun h => absurd h hc, fun h => absurd h hc,
    fun h => absurd h hc, fun h => absurd h hc, fun h => absurd h hc,
    fun h => absurd h hc, hcount⟩

theorem projAm_invisible {r : Nat} {e : VPEvent} (h : lifecycleReqId e = none) :
    projAm r [e] = [] := by
  rw [projAm_cons]
  rw [h]
  rfl

theorem projAm_single_self {r : Nat} {e : VPEvent} (h : lifecycleReqId e = some r) :
    projAm r [e] = [e] := by
  rw [projAm_cons, h]
  simp [projAm_nil]

theorem projAm_single_other {r rid : Nat} {e : VPEvent} (h : lifecycleReqId e = some rid)
    (hne : rid ≠ r) : projAm r [e] = [] := by
  rw [projAm_cons, h]
  rw [if_neg (by simp [hne])]
  rfl

/-- Re-establish `ReqRel` for a request the new state does not hold as
current, from monotonicity of the step's effect on the fields. -/
theorem ReqRel.reestablish {r : Nat} {s s' : EngineSt} {a : C2AmState}
    (h : ReqRel r s a)
    (hcnt : s.requestCounter ≤ s'.requestCounter)
    (hfresh : s.requestCounter < r → s'.requestCounter < r)
    (hcur : s'.currentRequestId ≠ some r)
    (hvad : s'.vadArmed = some r → s.vadArmed = some r)
    (htim : s'.captureTimeout = some r → s.captureTimeout = some r)
    (hpend : ∀ c ∈ s'.pending, c ∈ s.pending ∨ pendingRid c ≠ r)
    (hcount : s'.pending.count (.asr r) ≤ s.pending.count (.asr r)) :
    ReqRel r s' a := by
  by_cases hler : r ≤ s.requestCounter
  · exact ReqRel.notCurrent (le_trans hler hcnt) hcur (le_trans hcount h.asrCount)
  · have hgt : s.requestCounter < r := by omega
    refine ReqRel.freshMk (hfresh hgt) (h.unborn hgt) hcur ?_ ?_ ?_
      (le_trans hcount h.asrCount)
    · intro e
      have := h.vadLe (hvad e)
      omega
    · intro e
      have := h.timerLe (htim e)
      omega
    · intro c hc hcr
      rcases hpend c hc with hcs | hne
      · have := h.pendLe c hcs hcr
        omega
      · exact hne hcr

/-- Branch equations of `finishCapture`. -/
theorem finishCapture_drop {rid : Nat} {reason : CaptureReason} {s : EngineSt}
    (h : s.currentRequestId ≠ some rid) : finishCapture rid reason s = (s, []) := by
  unfold finishCapture
  rw [if_pos h]

theorem finishCapture_stop_eq {rid : Nat} {s : EngineSt}
    (h : s.currentRequestId = some rid) :
    finishCapture rid .stop s =
      (returnToListening { s with captureTimeout := none, vadArmed := none },
        [.CaptureEnded rid .stop]) := by
  unfold finishCapture
  rw [if_neg (by simp [h])]

theorem finishCapture_cancel_eq {rid : Nat} {s : EngineSt}
    (h : s.currentRequestId = some rid) :
    finishCapture rid .cancel s =
      (returnToListening { s with captureTimeout := none, vadArmed := none },
        [.CaptureEnded rid .cancel]) := by
  unfold finishCapture
  rw [if_neg (by simp [h])]

theorem finishCapture_vad_eq {rid : Nat} {s : EngineSt}
    (h : s.currentRequestId = some rid) :
    finishCapture rid .vad s =
      ({ s with
          captureTimeout := none
          vadArmed := none
          state := .TRANSCRIBING
          pending := s.pending ++ [.asr rid] },
        [.CaptureEnded rid .vad, .TranscriptionStarted rid]) := by
  unfold finishCapture startTranscription
  rw [if_neg (by simp [h])]
  dsimp only
  rw [if_neg (by simp [h])]

theorem finishCapture_timeout_eq {rid : Nat} {s : EngineSt}
    (h : s.currentRequestId = some rid) :
    finishCapture rid .timeout s =
      ({ s with
          captureTimeout := none
          vadArmed := none
          state := .TRANSCRIBING
          pending := s.pending ++ [.asr rid] },
        [.CaptureEnded rid .timeout, .TranscriptionStarted rid]) := by
  unfold finishCapture startTranscription
  rw [if_neg (by simp [h])]
  dsimp only
  rw [if_neg (by simp [h])]

/-- Erasing a pending continuation preserves the relation. -/
theorem ReqRel.erasePend {r : Nat} {s : EngineSt} {a : C2AmState}
    (h : ReqRel r s a) (i : Nat) :
    ReqRel r { s with pending := s.pending.eraseIdx i } a where
  unborn := h.unborn
  curLe := h.curLe
  vadLe := h.vadLe
  timerLe := h.timerLe
  pendLe := fun c hc hcr => h.pendLe c (mem_eraseIdx hc) hcr
  aeFalse := h.aeFalse
  capPhase := h.capPhase
  transPhase := h.transPhase
  armPhase := h.armPhase
  asrPhase := fun hg hmem => h.asrPhase hg (mem_eraseIdx hmem)
  hlAp := fun hg hex => h.hlAp hg (hex.imp (fun _ hmem => mem_eraseIdx hmem))
  asrCount := le_trans (count_eraseIdx_le s.pending i _) h.asrCount

theorem EngineInv.extendNil {s : EngineSt} {tr : List VPEvent}
    (h : EngineInv s tr) : EngineInv s (tr ++ []) := by
  rw [List.append_nil]
  exact h

/-- A step that emits only events invisible to every projection. -/
theorem EngineInv.invis {s s' : EngineSt} {tr evs : List VPEvent}
    (h : EngineInv s tr) (hevs : ∀ r, projAm r evs = [])
    (hre : ∀ r a, ReqRel r s a → ReqRel r s' a) :
    EngineInv s' (tr ++ evs) := by
  intro r
  obtain ⟨a, hrun, hrel⟩ := h r
  refine ⟨a, ?_, hre r a hrel⟩
  rw [projAm_append, hevs r, List.append_nil, hrun]

/-- Adjusting a state that holds no current request preserves the
invariant when the other holds only shrink. -/
theorem EngineInv.retuned {s s' : EngineSt} {tr : List VPEvent}
    (h : EngineInv s tr)
    (hcnt : s'.requestCounter = s.requestCounter)
    (hcur : s'.currentRequestId = none)
    (hvad : ∀ q, s'.vadArmed = some q → s.vadArmed = some q)
    (htim : ∀ q, s'.captureTimeout = some q → s.captureTimeout = some q)
    (hpend : s'.pending = s.pending) :
    EngineInv s' tr := by
  intro r
  obtain ⟨a, hrun, hrel⟩ := h r
  refine ⟨a, hrun, hrel.reestablish (le_of_eq hcnt.symm) (by omega) (by simp [hcur])
    (hvad r) (htim r) (fun c hc => Or.inl (hpend ▸ hc)) (le_of_eq (by rw [hpend]))⟩

/-- Branch equations of `cancelCurrentRequest` for the reasons its
callers pass. -/
theorem cancelCurrent_active_eq {reason : CaptureReason} {s : EngineSt} {rid : Nat}
    (hg : s.currentRequestId = some rid)
    (hst : s.state = .CAPTURING_TARGET ∨ s.state = .TRANSCRIBING)
    (hr : reason = .stop ∨ reason = .cancel) :
    cancelCurrentRequest reason s =
      ({ s with
          captureTimeout := none
          vadArmed := none
          currentRequestId := none
          state := .LISTENING_ON },
        [.CaptureEnded rid reason]) := by
  have hoff : s.state ≠ EngineState.LISTENING_OFF := by
    rcases hst with hst | hst <;> simp [hst]
  rcases hr with hr | hr <;> subst hr
  · unfold cancelCurrentRequest
    simp only [hg, if_pos hst, finishCapture_stop_eq hg, returnToListening_eq]
    rw [if_neg hoff]
  · unfold cancelCurrentRequest
    simp only [hg, if_pos hst, finishCapture_cancel_eq hg, returnToListening_eq]
    rw [if_neg hoff]

theorem cancelCurrent_idle_eq {reason : CaptureReason} {s : EngineSt}
    (h : s.currentRequestId = none ∨
      ¬(s.state = .CAPTURING_TARGET ∨ s.state = .TRANSCRIBING)) :
    cancelCurrentRequest reason s =
      ({ s with
          captureTimeout := none
          vadArmed := none
          currentRequestId := none }, []) := by
  unfold cancelCurrentRequest
  rcases hcc : s.currentRequestId with _ | rid
  · simp only [hcc]
  · rcases h with h | h
    · rw [hcc] at h
      exact absurd h (by simp)
    · simp only [hcc, if_neg h]

/-- `cancelCurrentRequest` preserves the run invariant. -/
theorem cancelCurrent_inv {reason : CaptureReason} {s : EngineSt} {tr : List VPEvent}
    (hInv : EngineInv s tr) (hr : reason = .stop ∨ reason = .cancel) :
    EngineInv (cancelCurrentRequest reason s).1
      (tr ++ (cancelCurrentRequest reason s).2) := by
  by_cases hact : ∃ rid, s.currentRequestId = some rid ∧
      (s.state = .CAPTURING_TARGET ∨ s.state = .TRANSCRIBING)
  · obtain ⟨rid, hg, hst⟩ := hact
    rw [cancelCurrent_active_eq hg hst hr]
    intro r
    obtain ⟨a, hrun, hrel⟩ := hInv r
    by_cases hreq : r = rid
    · subst hreq
      have hae : a.ae = false := hrel.aeFalse hg
      have hbb : a.bb = .b2 ∨ a.bb = .b3t := by
        rcases hst with hst | hst
        · exact Or.inl (hrel.capPhase hg hst)
        · exact Or.inr (hrel.transPhase hg hst)
      refine ⟨{ a with bb := .bDead }, ?_, ?_⟩
      · rw [projAm_append, c2AmRun_append, hrun, projAm_single_self (by rfl)]
        rcases hr with hr | hr <;> subst hr <;> rcases hbb with hbb | hbb <;>
          simp [c2AmRun, c2AmStep, hae, hbb]
      · exact ReqRel.notCurrent (hrel.curLe hg) (by simp) hrel.asrCount
    · refine ⟨a, ?_, ?_⟩
      · rw [projAm_append, c2AmRun_append, hrun,
          projAm_single_other (by rfl) (fun h => hreq h.symm)]
        rfl
      · exact hrel.reestablish (le_refl _) (fun h => h) (by simp) (by simp) (by simp)
          (fun c hc => Or.inl hc) (le_refl _)
  · have hdisj : s.currentRequestId = none ∨
        ¬(s.state = .CAPTURING_TARGET ∨ s.state = .TRANSCRIBING) := by
      rcases hcc : s.currentRequestId with _ | rid
      · exact Or.inl rfl
      · exact Or.inr (fun hst => hact ⟨rid, hcc, hst⟩)
    rw [cancelCurrent_idle_eq hdisj]
    refine EngineInv.extendNil (EngineInv.retuned hInv ?_ ?_ ?_ ?_ ?_)
    · rfl
    · rfl
    · simp
    · simp
    · rfl

theorem ccr_cur (reason : CaptureReason) (s : EngineSt) :
    (cancelCurrentRequest reason s).1.currentRequestId = none := rfl

theorem startListening_inv {s : EngineSt} {tr : List VPEvent} (hInv : EngineInv s tr) :
    EngineInv (startListeningCall s).1 (tr ++ (startListeningCall s).2) := by
  unfold startListeningCall
  by_cases hoff : s.state ≠ EngineState.LISTENING_OFF
  · rw [if_pos hoff]
    exact hInv.extendNil
  · rw [if_neg hoff]
    refine EngineInv.invis hInv (fun r => projAm_invisible rfl) ?_
    intro r a hrel
    exact { unborn := hrel.unborn
            curLe := hrel.curLe
            vadLe := hrel.vadLe
            timerLe := hrel.timerLe
            pendLe := hrel.pendLe
            aeFalse := hrel.aeFalse
            capPhase := fun _ hst => absurd hst (by simp)
            transPhase := fun _ hst => absurd hst (by simp)
            armPhase := hrel.armPhase
            asrPhase := hrel.asrPhase
            hlAp := hrel.hlAp
            asrCount := hrel.asrCount }

theorem stopListening_inv {s : EngineSt} {tr : List VPEvent} (hInv : EngineInv s tr) :
    EngineInv (stopListeningCall s).1 (tr ++ (stopListeningCall s).2) := by
  have h1 := cancelCurrent_inv hInv (Or.inl rfl)
  unfold stopListeningCall
  dsimp only
  rw [← List.append_assoc]
  refine EngineInv.invis h1 (fun r => projAm_invisible rfl) ?_
  intro r a hrel
  exact hrel.reestablish (le_refl _) (fun h => h) (by simp [ccr_cur .stop s]) (fun h => h)
    (fun h => h) (fun c hc => Or.inl hc) (le_refl _)

theorem cancelApi_inv {s : EngineSt} {tr : List VPEvent} (hInv : EngineInv s tr) :
    EngineInv (cancelApi s).1 (tr ++ (cancelApi s).2) := by
  have h1 := cancelCurrent_inv hInv (Or.inr rfl)
  unfold cancelApi
  dsimp only
  split
  · exact EngineInv.retuned h1 rfl (ccr_cur .cancel s) (fun q h => h) (fun q h => h) rfl
  · exact h1

theorem destroy_inv {s : EngineSt} {tr : List VPEvent} (hInv : EngineInv s tr) :
    EngineInv (destroyCall s).1 (tr ++ (destroyCall s).2) := by
  have h1 := cancelCurrent_inv hInv (Or.inl rfl)
  unfold destroyCall
  dsimp only
  exact EngineInv.retuned h1 rfl (ccr_cur .stop s) (fun q h => absurd h (by simp))
    (fun q h => h) rfl

/-- `finishCapture` for the VAD / timer callbacks (which fire only while
armed for the request) preserves the run invariant. -/
theorem fc_flow_inv {reason : CaptureReason} {rid : Nat} {s : EngineSt}
    {tr : List VPEvent} (hInv : EngineInv s tr)
    (hreason : reason = .vad ∨ reason = .timeout)
    (harm : s.vadArmed = some rid ∨ s.captureTimeout = some rid) :
    EngineInv (finishCapture rid reason s).1 (tr ++ (finishCapture rid reason s).2) := by
  by_cases hg : s.currentRequestId = some rid
  · have heq : finishCapture rid reason s =
        ({ s with
            captureTimeout := none
            vadArmed := none
            state := .TRANSCRIBING
            pending := s.pending ++ [.asr rid] },
          [.CaptureEnded rid reason, .TranscriptionStarted rid]) := by
      rcases hreason with h | h <;> subst h
      · exact finishCapture_vad_eq hg
      · exact finishCapture_timeout_eq hg
    rw [heq]
    intro r
    obtain ⟨a, hrun, hrel⟩ := hInv r
    by_cases hreq : r = rid
    · subst hreq
      have hae : a.ae = false := hrel.aeFalse hg
      have hbb : a.bb = .b2 := hrel.armPhase hg harm
      have hnotmem : PendingCont.asr r ∉ s.pending := fun hmem => by
        have hph := hrel.asrPhase hg hmem
        rw [hbb] at hph
        simp at hph
      refine ⟨{ a with bb := .b3t }, ?_, ?_, ?_, ?_, ?_, ?_, ?_, ?_, ?_, ?_, ?_, ?_, ?_⟩
      · rw [projAm_append, c2AmRun_append, hrun]
        have hproj : projAm r [VPEvent.CaptureEnded r reason,
            VPEvent.TranscriptionStarted r] =
            [VPEvent.CaptureEnded r reason, VPEvent.TranscriptionStarted r] := by
          simp [projAm, List.filter, lifecycleReqId]
        rw [hproj]
        rcases hreason with h | h <;> subst h <;> simp [c2AmRun, c2AmStep, hae, hbb]
      · exact fun hlt => absurd (hrel.curLe hg) (by simp at hlt; omega)
      · exact fun _ => hrel.curLe hg
      · exact fun h => absurd h (by simp)
      · exact fun h => absurd h (by simp)
      · intro c hc hcr
        rcases List.mem_append.mp hc with h | h
        · exact hrel.pendLe c h hcr
        · exact hrel.curLe hg
      · exact fun _ => hae
      · exact fun _ hst => absurd hst (by simp)
      · exact fun _ _ => rfl
      · exact fun _ hor => absurd hor (by simp)
      · exact fun _ _ => rfl
      · intro hg2 hex
        obtain ⟨tgt, hmem⟩ := hex
        rcases List.mem_append.mp hmem with h | h
        · exact hrel.hlAp hg ⟨tgt, h⟩
        · simp at h
      · have h0 : s.pending.count (.asr r) = 0 := List.count_eq_zero.mpr hnotmem
        show (s.pending ++ [PendingCont.asr r]).count (PendingCont.asr r) ≤ 1
        rw [count_append_one, h0, if_pos rfl]
    · refine ⟨a, ?_, ?_⟩
      · rw [projAm_append, c2AmRun_append, hrun]
        have hne : rid ≠ r := fun h => hreq h.symm
        have hbeq : (rid == r) = false := beq_eq_false_iff_ne.mpr hne
        have hproj : projAm r [VPEvent.CaptureEnded rid reason,
            VPEvent.TranscriptionStarted rid] = [] := by
          simp [projAm, List.filter, lifecycleReqId, hbeq]
        rw [hproj]
        rfl
      · refine hrel.reestablish (le_refl _) (fun h => h) (by simp [hg]; omega)
          (fun h => absurd h (by simp)) (fun h => absurd h (by simp)) ?_ ?_
        · intro c hc
          rcases List.mem_append.mp hc with h | h
          · exact Or.inl h
          · simp at h
            subst h
            refine Or.inr ?_
            simp [pendingRid]
            omega
        · rw [count_append_one, if_neg (by simp; omega)]
          simp
  · rw [finishCapture_drop hg]
    exact hInv.extendNil

/-- `startCaptureFlow` preserves the run invariant. -/
theorem scf_inv {dom : DomIndexResult} {s : EngineSt} {tr : List VPEvent}
    (hInv : EngineInv s tr) :
    EngineInv (startCaptureFlow dom s).1 (tr ++ (startCaptureFlow dom s).2) := by
  unfold startCaptureFlow
  dsimp only
  intro r
  obtain ⟨a, hrun, hrel⟩ := hInv r
  by_cases hreq : r = s.requestCounter + 1
  · subst hreq
    have ha : a = amInit := hrel.unborn (by omega)
    subst ha
    refine ⟨⟨.b2, false, false⟩, ?_, ?_, ?_, ?_, ?_, ?_, ?_, ?_, ?_, ?_, ?_, ?_, ?_⟩
    · rw [projAm_append, c2AmRun_append, hrun]
      have hproj : projAm (s.requestCounter + 1)
          [VPEvent.CaptureStarted (s.requestCounter + 1),
            VPEvent.TargetIndexBuilt (s.requestCounter + 1) dom.targets.length dom.scope] =
          [VPEvent.CaptureStarted (s.requestCounter + 1),
            VPEvent.TargetIndexBuilt (s.requestCounter + 1) dom.targets.length dom.scope] := by
        simp [projAm, List.filter, lifecycleReqId]
      rw [hproj]
      simp [c2AmRun, c2AmStep, amInit]
    · exact fun hlt => absurd hlt (by simp)
    · exact fun _ => le_refl _
    · exact fun _ => le_refl _
    · exact fun _ => le_refl _
    · exact fun c hc hcr => le_refl _
    · exact fun _ => rfl
    · exact fun _ _ => rfl
    · exact fun _ hst => absurd hst (by simp)
    · exact fun _ _ => rfl
    · exact fun _ hmem => absurd
        (hrel.pendLe (PendingCont.asr (s.requestCounter + 1)) hmem rfl) (by omega)
    · intro _ hex
      obtain ⟨tgt, hmem⟩ := hex
      exact absurd
        (hrel.pendLe (PendingCont.highlight (s.requestCounter + 1) tgt) hmem rfl) (by omega)
    · show s.pending.count (PendingCont.asr (s.requestCounter + 1)) ≤ 1
      rw [List.count_eq_zero.mpr (fun hmem => absurd
        (hrel.pendLe (PendingCont.asr (s.requestCounter + 1)) hmem rfl) (by omega))]
      omega
  · refine ⟨a, ?_, ?_⟩
    · rw [projAm_append, c2AmRun_append, hrun]
      have hbeq : (s.requestCounter + 1 == r) = false :=
        beq_eq_false_iff_ne.mpr (fun h => hreq h.symm)
      have hproj : projAm r
          [VPEvent.CaptureStarted (s.requestCounter + 1),
            VPEvent.TargetIndexBuilt (s.requestCounter + 1) dom.targets.length dom.scope] =
          [] := by
        simp [projAm, List.filter, lifecycleReqId, hbeq]
      rw [hproj]
      rfl
    · exact hrel.reestablish (Nat.le_succ _) (fun h => by simp; omega) (by simp; omega)
        (fun h => absurd h (by simp; omega)) (fun h => absurd h (by simp; omega))
        (fun c hc => Or.inl hc) (le_refl _)

/-- `handleKeyword` preserves the run invariant. -/
theorem handleKeyword_inv {k : Keyword} {conf : Rat} {dom : DomIndexResult}
    {s : EngineSt} {tr : List VPEvent} (hInv : EngineInv s tr) :
    EngineInv (handleKeyword k conf dom s).1 (tr ++ (handleKeyword k conf dom s).2) := by
  have hInvK : EngineInv s (tr ++ [VPEvent.KeywordDetected k (some conf)]) :=
    EngineInv.invis hInv (fun r => projAm_invisible rfl) (fun r a h => h)
  unfold handleKeyword
  cases k <;> dsimp only
  · by_cases hst : s.state = EngineState.LISTENING_ON
    · rw [if_pos hst]
      dsimp only
      rw [List.append_cons]
      exact scf_inv hInvK
    · rw [if_neg hst]
      exact hInvK
  · by_cases hst : s.state = EngineState.LISTENING_ON
    · rw [if_pos hst]
      dsimp only
      rw [List.append_cons]
      exact scf_inv hInvK
    · rw [if_neg hst]
      exact hInvK
  · have h1 := cancelCurrent_inv hInvK (Or.inl rfl)
    rw [List.append_cons]
    split
    · exact EngineInv.retuned h1 rfl (ccr_cur .stop s) (fun q h => h) (fun q h => h) rfl
    · exact h1
  · have h1 := cancelApi_inv hInvK
    rw [List.append_cons]
    exact h1
  · exact hInvK

/-- Branch equations of `resolveAndExecute`. -/
theorem rae_drop {rid : Nat} {t : String} {s : EngineSt}
    (h : s.currentRequestId ≠ some rid) : resolveAndExecute rid t s = (s, []) := by
  unfold resolveAndExecute
  rw [if_pos h]

theorem rae_unique_eq {rid : Nat} {t : String} {s : EngineSt}
    {m : MatchResult} {ms : List MatchResult}
    (hg : s.currentRequestId = some rid)
    (hres : (resolveTarget t ((s.currentIndex.map DomIndexResult.targets).getD [])
      s.config).status = .unique)
    (hm : (resolveTarget t ((s.currentIndex.map DomIndexResult.targets).getD [])
      s.config).matchList = m :: ms) :
    resolveAndExecute rid t s =
      ({ s with
          state := .EXECUTING
          pending := s.pending ++ [.highlight rid m.target] },
        [.TargetResolved rid m.target.id m.target.normalizedLabel m.type,
          .ActionProposed rid (determineAction m.target) m.target.id m.target.risk]) := by
  unfold resolveAndExecute proposeStart
  rw [if_neg (by simp [hg])]
  dsimp only
  rw [hres]
  dsimp only
  rw [hm]

theorem rae_nilunique_eq {rid : Nat} {t : String} {s : EngineSt}
    (hg : s.currentRequestId = some rid)
    (hres : (resolveTarget t ((s.currentIndex.map DomIndexResult.targets).getD [])
      s.config).status = .unique)
    (hm : (resolveTarget t ((s.currentIndex.map DomIndexResult.targets).getD [])
      s.config).matchList = []) :
    resolveAndExecute rid t s = ({ s with state := .RESOLVING_TARGET }, []) := by
  unfold resolveAndExecute
  rw [if_neg (by simp [hg])]
  dsimp only
  rw [hres]
  dsimp only
  rw [hm]

theorem rae_ambiguous_eq {rid : Nat} {t : String} {s : EngineSt}
    (hg : s.currentRequestId = some rid)
    (hres : (resolveTarget t ((s.currentIndex.map DomIndexResult.targets).getD [])
      s.config).status = .ambiguous) :
    resolveAndExecute rid t s =
      ({ s with state := .ERROR },
        [.TargetResolutionFailed rid .ambiguous
          (some (.candidates ((resolveTarget t
              ((s.currentIndex.map DomIndexResult.targets).getD []) s.config).matchList.map
            (fun m => (m.target.id, m.target.normalizedLabel, m.score)))))]) := by
  unfold resolveAndExecute
  rw [if_neg (by simp [hg])]
  dsimp only
  rw [hres]

theorem rae_nomatch_eq {rid : Nat} {t : String} {s : EngineSt}
    (hg : s.currentRequestId = some rid)
    (hres : (resolveTarget t ((s.currentIndex.map DomIndexResult.targets).getD [])
      s.config).status = .no_match) :
    resolveAndExecute rid t s =
      ({ s with
          state := .LISTENING_ON
          currentRequestId := none },
        [.TargetResolutionFailed rid .no_match none]) := by
  unfold resolveAndExecute
  rw [if_neg (by simp [hg])]
  dsimp only
  rw [hres]
  dsimp only
  rw [returnToListening_eq]
  dsimp only
  rw [if_neg (by simp)]

theorem rae_misconf_eq {rid : Nat} {t : String} {s : EngineSt}
    (hg : s.currentRequestId = some rid)
    (hres : (resolveTarget t ((s.currentIndex.map DomIndexResult.targets).getD [])
      s.config).status = .misconfiguration) :
    resolveAndExecute rid t s =
      ({ s with
          state := .LISTENING_ON
          currentRequestId := none },
        [.TargetResolutionFailed rid .misconfiguration
          ((resolveTarget t ((s.currentIndex.map DomIndexResult.targets).getD [])
            s.config).details.map .resolution)]) := by
  unfold resolveAndExecute
  rw [if_neg (by simp [hg])]
  dsimp only
  rw [hres]
  dsimp only
  rw [returnToListening_eq]
  dsimp only
  rw [if_neg (by simp)]

/-- `resolveAndExecute` preserves the run invariant when entered with the
request current, unarmed, no suspension of its own pending, and its
projection parked after `TranscriptReady`. -/
theorem rae_inv {rid : Nat} {t : String} {s : EngineSt} {tr : List VPEvent}
    {a0 : C2AmState}
    (hOther : ∀ r, r ≠ rid → ∃ a, c2AmRun amInit (projAm r tr) = some a ∧ ReqRel r s a)
    (hg : s.currentRequestId = some rid)
    (hvne : s.vadArmed ≠ some rid) (htne : s.captureTimeout ≠ some rid)
    (hrun0 : c2AmRun amInit (projAm rid tr) = some a0)
    (hb4 : a0.bb = .b4) (hae0 : a0.ae = false)
    (hle0 : rid ≤ s.requestCounter)
    (hnotasr : PendingCont.asr rid ∉ s.pending)
    (hhl : (∃ tgt, PendingCont.highlight rid tgt ∈ s.pending) → a0.ap = true)
    (hcount0 : s.pending.count (PendingCont.asr rid) ≤ 1) :
    EngineInv (resolveAndExecute rid t s).1 (tr ++ (resolveAndExecute rid t s).2) := by
  rcases hres : (resolveTarget t ((s.currentIndex.map DomIndexResult.targets).getD [])
      s.config).status with _ | _ | _ | _
  · -- unique
    rcases hm : (resolveTarget t ((s.currentIndex.map DomIndexResult.targets).getD [])
        s.config).matchList with _ | ⟨m, ms⟩
    · rw [rae_nilunique_eq hg hres hm]
      intro r
      by_cases hreq : r = rid
      · subst hreq
        refine ⟨a0, by rw [List.append_nil]; exact hrun0,
          fun hlt => absurd hle0 (by simp at hlt; omega), fun _ => hle0, fun _ => hle0,
          fun _ => hle0, fun c hc hcr => hle0, fun _ => hae0,
          fun _ hst => absurd hst (by simp), fun _ hst => absurd hst (by simp),
          fun _ hor => hor.elim (fun h => absurd h hvne) (fun h => absurd h htne),
          fun _ hmem => absurd hmem hnotasr, fun _ hex => hhl hex, hcount0⟩
      · obtain ⟨a, hrun, hrel⟩ := hOther r hreq
        refine ⟨a, by rw [List.append_nil]; exact hrun,
          hrel.unborn, hrel.curLe, hrel.vadLe, hrel.timerLe, hrel.pendLe, hrel.aeFalse,
          fun _ hst => absurd hst (by simp), fun _ hst => absurd hst (by simp),
          hrel.armPhase, hrel.asrPhase, hrel.hlAp, hrel.asrCount⟩
    · rw [rae_unique_eq hg hres hm]
      intro r
      by_cases hreq : r = rid
      · subst hreq
        refine ⟨{ a0 with bb := .b6, ap := true }, ?_, ?_, ?_, ?_, ?_, ?_, ?_, ?_, ?_,
          ?_, ?_, ?_, ?_⟩
        · rw [projAm_append, c2AmRun_append, hrun0]
          have hproj : projAm r
              [VPEvent.TargetResolved r m.target.id m.target.normalizedLabel m.type,
                VPEvent.ActionProposed r (determineAction m.target) m.target.id
                  m.target.risk] =
              [VPEvent.TargetResolved r m.target.id m.target.normalizedLabel m.type,
                VPEvent.ActionProposed r (determineAction m.target) m.target.id
                  m.target.risk] := by
            simp [projAm, List.filter, lifecycleReqId]
          rw [hproj]
          simp [c2AmRun, c2AmStep, hae0, hb4]
        · exact fun hlt => absurd hle0 (by simp at hlt; omega)
        · exact fun _ => hle0
        · exact fun _ => hle0
        · exact fun _ => hle0
        · exact fun c hc hcr => hle0
        · exact fun _ => hae0
        · exact fun _ hst => absurd hst (by simp)
        · exact fun _ hst => absurd hst (by simp)
        · exact fun _ hor => hor.elim (fun h => absurd h hvne) (fun h => absurd h htne)
        · intro _ hmem
          rcases List.mem_append.mp hmem with h | h
          · exact absurd h hnotasr
          · simp at h
        · exact fun _ _ => rfl
        · show (s.pending ++ [PendingCont.highlight r m.target]).count
            (PendingCont.asr r) ≤ 1
          rw [count_append_one, if_neg (by simp)]
          simpa using hcount0
      · obtain ⟨a, hrun, hrel⟩ := hOther r hreq
        have hbeq : (rid == r) = false := beq_eq_false_iff_ne.mpr (fun h => hreq h.symm)
        refine ⟨a, ?_, ?_⟩
        · rw [projAm_append, c2AmRun_append, hrun]
          have hproj : projAm r
              [VPEvent.TargetResolved rid m.target.id m.target.normalizedLabel m.type,
                VPEvent.ActionProposed rid (determineAction m.target) m.target.id
                  m.target.risk] = [] := by
            simp [projAm, List.filter, lifecycleReqId, hbeq]
          rw [hproj]
          rfl
        · refine hrel.reestablish (le_refl _) (fun h => h) (by simp [hg]; omega)
            (fun h => h) (fun h => h) ?_ ?_
          · intro c hc
            rcases List.mem_append.mp hc with h | h
            · exact Or.inl h
            · simp at h
              subst h
              refine Or.inr ?_
              simp [pendingRid]
              omega
          · rw [count_append_one, if_neg (by simp)]
            simp
  · -- ambiguous
    rw [rae_ambiguous_eq hg hres]
    intro r
    by_cases hreq : r = rid
    · subst hreq
      refine ⟨{ a0 with bb := .b7 }, ?_, ?_, ?_, ?_, ?_, ?_, ?_, ?_, ?_, ?_, ?_, ?_, ?_⟩
      · rw [projAm_append, c2AmRun_append, hrun0,
          projAm_single_self (by rfl)]
        simp [c2AmRun, c2AmStep, hae0, hb4]
      · exact fun hlt => absurd hle0 (by simp at hlt; omega)
      · exact fun _ => hle0
      · exact fun _ => hle0
      · exact fun _ => hle0
      · exact fun c hc hcr => hle0
      · exact fun _ => hae0
      · exact fun _ hst => absurd hst (by simp)
      · exact fun _ hst => absurd hst (by simp)
      · exact fun _ hor => hor.elim (fun h => absurd h hvne) (fun h => absurd h htne)
      · exact fun _ hmem => absurd hmem hnotasr
      · exact fun _ hex => hhl hex
      · exact hcount0
    · obtain ⟨a, hrun, hrel⟩ := hOther r hreq
      refine ⟨a, ?_, ?_⟩
      · rw [projAm_append, c2AmRun_append, hrun,
          projAm_single_other (by rfl) (fun h => hreq h.symm)]
        rfl
      · exact hrel.reestablish (le_refl _) (fun h => h) (by simp [hg]; omega)
          (fun h => h) (fun h => h) (fun c hc => Or.inl hc) (le_refl _)
  · -- no_match
    rw [rae_nomatch_eq hg hres]
    intro r
    by_cases hreq : r = rid
    · subst hreq
      refine ⟨{ a0 with bb := .b7 }, ?_, ?_⟩
      · rw [projAm_append, c2AmRun_append, hrun0,
          projAm_single_self (by rfl)]
        simp [c2AmRun, c2AmStep, hae0, hb4]
      · exact ReqRel.notCurrent hle0 (by simp) hcount0
    · obtain ⟨a, hrun, hrel⟩ := hOther r hreq
      refine ⟨a, ?_, ?_⟩
      · rw [projAm_append, c2AmRun_append, hrun,
          projAm_single_other (by rfl) (fun h => hreq h.symm)]
        rfl
      · exact hrel.reestablish (le_refl _) (fun h => h) (by simp)
          (fun h => h) (fun h => h) (fun c hc => Or.inl hc) (le_refl _)
  · -- misconfiguration
    rw [rae_misconf_eq hg hres]
    intro r
    by_cases hreq : r = rid
    · subst hreq
      refine ⟨{ a0 with bb := .b7 }, ?_, ?_⟩
      · rw [projAm_append, c2AmRun_append, hrun0,
          projAm_single_self (by rfl)]
        simp [c2AmRun, c2AmStep, hae0, hb4]
      · exact ReqRel.notCurrent hle0 (by simp) hcount0
    · obtain ⟨a, hrun, hrel⟩ := hOther r hreq
      refine ⟨a, ?_, ?_⟩
      · rw [projAm_append, c2AmRun_append, hrun,
          projAm_single_other (by rfl) (fun h => hreq h.symm)]
        rfl
      · exact hrel.reestablish (le_refl _) (fun h => h) (by simp)
          (fun h => h) (fun h => h) (fun c hc => Or.inl hc) (le_refl _)

/-- `simulateTranscript` preserves the run invariant. -/
theorem simulate_inv {t : String} {dom : DomIndexResult} {s : EngineSt}
    {tr : List VPEvent} (hInv : EngineInv s tr) :
    EngineInv (simulateTranscriptCall t dom s).1
      (tr ++ (simulateTranscriptCall t dom s).2) := by
  unfold simulateTranscriptCall
  by_cases hoff : s.state = EngineState.LISTENING_OFF
  · rw [if_pos hoff]
    exact hInv.extendNil
  · rw [if_neg hoff]
    dsimp only
    rw [← List.append_assoc]
    obtain ⟨ax, hrunx, hrelx⟩ := hInv (s.requestCounter + 1)
    have hax : ax = amInit := hrelx.unborn (by omega)
    subst hax
    have hrunMid : c2AmRun amInit (projAm (s.requestCounter + 1)
        (tr ++ [VPEvent.TargetIndexBuilt (s.requestCounter + 1) dom.targets.length
            dom.scope,
          VPEvent.TranscriptReady (s.requestCounter + 1) t])) =
        some ⟨.b4, false, false⟩ := by
      rw [projAm_append, c2AmRun_append, hrunx]
      have hproj : projAm (s.requestCounter + 1)
          [VPEvent.TargetIndexBuilt (s.requestCounter + 1) dom.targets.length dom.scope,
            VPEvent.TranscriptReady (s.requestCounter + 1) t] =
          [VPEvent.TargetIndexBuilt (s.requestCounter + 1) dom.targets.length dom.scope,
            VPEvent.TranscriptReady (s.requestCounter + 1) t] := by
        simp [projAm, List.filter, lifecycleReqId]
      rw [hproj]
      simp [c2AmRun, c2AmStep, amInit]
    refine rae_inv ?_ rfl
      (fun h => absurd (hrelx.vadLe h) (by omega))
      (fun h => absurd (hrelx.timerLe h) (by omega))
      hrunMid rfl rfl (le_refl _)
      (fun hmem => absurd
        (hrelx.pendLe (PendingCont.asr (s.requestCounter + 1)) hmem rfl) (by omega))
      (fun hex => ?_) hrelx.asrCount
    · intro r hreq
      obtain ⟨a, hrun, hrel⟩ := hInv r
      have hbeq : (s.requestCounter + 1 == r) = false :=
        beq_eq_false_iff_ne.mpr (fun h => hreq h.symm)
      refine ⟨a, ?_, ?_⟩
      · rw [projAm_append, c2AmRun_append, hrun]
        have hproj : projAm r
            [VPEvent.TargetIndexBuilt (s.requestCounter + 1) dom.targets.length
                dom.scope,
              VPEvent.TranscriptReady (s.requestCounter + 1) t] = [] := by
          simp [projAm, List.filter, lifecycleReqId, hbeq]
        rw [hproj]
        rfl
      · exact hrel.reestablish (Nat.le_succ _) (fun h => by simp; omega)
          (by simp; omega) (fun h => h) (fun h => h) (fun c hc => Or.inl hc) (le_refl _)
    · obtain ⟨tgt, hmem⟩ := hex
      exact absurd (hrelx.pendLe
        (PendingCont.highlight (s.requestCounter + 1) tgt) hmem rfl) (by omega)

/-- `selectDisambiguationTarget` preserves the run invariant. -/
theorem selectTarget_inv {targetId : String} {s : EngineSt} {tr : List VPEvent}
    (hInv : EngineInv s tr) :
    EngineInv (selectDisambiguationTarget targetId s).1
      (tr ++ (selectDisambiguationTarget targetId s).2) := by
  unfold selectDisambiguationTarget proposeStart
  rcases hidx : s.currentIndex with _ | idx
  · simp only [hidx]
    exact hInv.extendNil
  · simp only [hidx]
    rcases hfind : idx.targets.find? (fun t2 => t2.id == targetId) with _ | tgt
    · simp only [hfind]
      exact hInv.extendNil
    · simp only [hfind]
      rcases hcc : s.currentRequestId with _ | rid
      · simp only [hcc]
        intro r
        by_cases hreq : r = s.requestCounter + 1
        · subst hreq
          obtain ⟨ax, hrunx, hrelx⟩ := hInv (s.requestCounter + 1)
          have hax : ax = amInit := hrelx.unborn (by omega)
          subst hax
          refine ⟨⟨.b0, true, false⟩, ?_, ?_, ?_, ?_, ?_, ?_, ?_, ?_, ?_, ?_, ?_,
            ?_, ?_⟩
          · rw [projAm_append, c2AmRun_append, hrunx,
              projAm_single_self (by rfl)]
            simp [c2AmRun, c2AmStep, amInit]
          · exact fun hlt => absurd hlt (by simp)
          · exact fun h => absurd h (by simp [hcc])
          · exact fun _ => le_refl _
          · exact fun _ => le_refl _
          · exact fun c hc hcr => le_refl _
          · exact fun h => absurd h (by simp [hcc])
          · exact fun h _ => absurd h (by simp [hcc])
          · exact fun h _ => absurd h (by simp [hcc])
          · exact fun h _ => absurd h (by simp [hcc])
          · exact fun h _ => absurd h (by simp [hcc])
          · exact fun h _ => absurd h (by simp [hcc])
          · show (s.pending ++ [PendingCont.highlight (s.requestCounter + 1) tgt]).count
              (PendingCont.asr (s.requestCounter + 1)) ≤ 1
            rw [count_append_one, if_neg (by simp)]
            simpa using hrelx.asrCount
        · obtain ⟨a, hrun, hrel⟩ := hInv r
          refine ⟨a, ?_, ?_⟩
          · rw [projAm_append, c2AmRun_append, hrun,
              projAm_single_other (by rfl) (fun h => hreq h.symm)]
            rfl
          · refine hrel.reestablish (Nat.le_succ _) (fun h => by simp; omega)
              (by simp [hcc]) (fun h => h) (fun h => h) ?_ ?_
            · intro c hc
              rcases List.mem_append.mp hc with h | h
              · exact Or.inl h
              · simp at h
                subst h
                refine Or.inr ?_
                simp [pendingRid]
                omega
            · rw [count_append_one, if_neg (by simp)]
              simp
      · simp only [hcc]
        intro r
        obtain ⟨a, hrun, hrel⟩ := hInv r
        by_cases hreq : r = rid
        · subst hreq
          have hae : a.ae = false := hrel.aeFalse hcc
          refine ⟨{ a with ap := true }, ?_, ?_, ?_, ?_, ?_, ?_, ?_, ?_, ?_, ?_, ?_,
            ?_, ?_⟩
          · rw [projAm_append, c2AmRun_append, hrun,
              projAm_single_self (by rfl)]
            simp [c2AmRun, c2AmStep, hae]
          · exact fun hlt => absurd (hrel.curLe hcc) (by simp at hlt; omega)
          · exact fun _ => hrel.curLe hcc
          · exact fun h => hrel.vadLe h
          · exact fun h => hrel.timerLe h
          · intro c hc hcr
            rcases List.mem_append.mp hc with h | h
            · exact hrel.pendLe c h hcr
            · exact hrel.curLe hcc
          · exact fun _ => hae
          · exact fun _ hst => absurd hst (by simp)
          · exact fun _ hst => absurd hst (by simp)
          · exact fun _ hor => hrel.armPhase hcc hor
          · intro _ hmem
            rcases List.mem_append.mp hmem with h | h
            · exact hrel.asrPhase hcc h
            · simp at h
          · exact fun _ _ => rfl
          · show (s.pending ++ [PendingCont.highlight r tgt]).count
              (PendingCont.asr r) ≤ 1
            rw [count_append_one, if_neg (by simp)]
            simpa using hrel.asrCount
        · refine ⟨a, ?_, ?_⟩
          · rw [projAm_append, c2AmRun_append, hrun,
              projAm_single_other (by rfl) (fun h => hreq h.symm)]
            rfl
          · refine hrel.reestablish (le_refl _) (fun h => h) (by simp [hcc]; omega)
              (fun h => h) (fun h => h) ?_ ?_
            · intro c hc
              rcases List.mem_append.mp hc with h | h
              · exact Or.inl h
              · simp at h
                subst h
                refine Or.inr ?_
                simp [pendingRid]
                omega
            · rw [count_append_one, if_neg (by simp)]
              simp

/-- Resuming an ASR suspension preserves the run invariant. -/
theorem asrDone_inv {i rid : Nat} {result : Except String String} {s : EngineSt}
    {tr : List VPEvent} (hInv : EngineInv s tr)
    (hi : s.pending[i]? = some (.asr rid)) :
    EngineInv (asrResume rid result { s with pending := s.pending.eraseIdx i }).1
      (tr ++ (asrResume rid result { s with pending := s.pending.eraseIdx i }).2) := by
  have hmem : PendingCont.asr rid ∈ s.pending := mem_of_getElem? hi
  unfold asrResume
  rcases result with e | t2
  · dsimp only
    rw [returnToListening_eq]
    refine EngineInv.invis hInv (fun r => projAm_invisible rfl) ?_
    intro r a hrel
    exact (hrel.erasePend i).reestablish (le_refl _) (fun h => h) (by simp)
      (fun h => h) (fun h => h) (fun c hc => Or.inl hc) (le_refl _)
  · dsimp only
    by_cases hcur : s.currentRequestId = some rid
    · rw [if_neg (by simp [hcur])]
      obtain ⟨a, hrun, hrel⟩ := hInv rid
      have hae : a.ae = false := hrel.aeFalse hcur
      have hb3 : a.bb = .b3t := hrel.asrPhase hcur hmem
      have hcnt1 : s.pending.count (PendingCont.asr rid) = 1 := by
        have hne0 : s.pending.count (PendingCont.asr rid) ≠ 0 :=
          fun h0 => absurd hmem (List.count_eq_zero.mp h0)
        have := hrel.asrCount
        omega
      have hcnt0 : (s.pending.eraseIdx i).count (PendingCont.asr rid) = 0 := by
        have := count_eraseIdx_exact s.pending i _ hi
        omega
      have hnot2 : PendingCont.asr rid ∉ s.pending.eraseIdx i :=
        List.count_eq_zero.mp hcnt0
      by_cases htrim : jsTrim t2 = ""
      · rw [if_pos htrim, returnToListening_eq]
        intro r
        by_cases hreq : r = rid
        · subst hreq
          refine ⟨{ a with bb := .b4 }, ?_, ?_⟩
          · rw [projAm_append, c2AmRun_append, hrun]
            have hproj : projAm r [VPEvent.TranscriptReady r t2,
                VPEvent.EngineError ({ s with
                  pending := s.pending.eraseIdx i } : EngineSt).currentRequestId
                  .NO_SPEECH_DETECTED "No speech detected in captured audio"] =
                [VPEvent.TranscriptReady r t2] := by
              simp [projAm, List.filter, lifecycleReqId]
            rw [hproj]
            simp [c2AmRun, c2AmStep, hae, hb3]
          · exact ReqRel.notCurrent (hrel.curLe hcur) (by simp)
              (le_trans (count_eraseIdx_le s.pending i _) hrel.asrCount)
        · obtain ⟨a2, hrun2, hrel2⟩ := hInv r
          have hbeq : (rid == r) = false :=
            beq_eq_false_iff_ne.mpr (fun h => hreq h.symm)
          refine ⟨a2, ?_, ?_⟩
          · rw [projAm_append, c2AmRun_append, hrun2]
            have hproj : projAm r [VPEvent.TranscriptReady rid t2,
                VPEvent.EngineError ({ s with
                  pending := s.pending.eraseIdx i } : EngineSt).currentRequestId
                  .NO_SPEECH_DETECTED "No speech detected in captured audio"] = [] := by
              simp [projAm, List.filter, lifecycleReqId, hbeq]
            rw [hproj]
            rfl
          · exact (hrel2.erasePend i).reestablish (le_refl _) (fun h => h) (by simp)
              (fun h => h) (fun h => h) (fun c hc => Or.inl hc) (le_refl _)
      · rw [if_neg htrim]
        dsimp only
        rw [List.append_cons]
        have hrunMid : c2AmRun amInit (projAm rid
            (tr ++ [VPEvent.TranscriptReady rid t2])) = some { a with bb := .b4 } := by
          rw [projAm_append, c2AmRun_append, hrun, projAm_single_self (by rfl)]
          simp [c2AmRun, c2AmStep, hae, hb3]
        refine rae_inv ?_ (by simp [hcur]) ?_ ?_ hrunMid rfl hae (hrel.curLe hcur)
          hnot2 ?_ (le_trans (count_eraseIdx_le s.pending i _) hrel.asrCount)
        · intro r hreq
          obtain ⟨a2, hrun2, hrel2⟩ := hInv r
          refine ⟨a2, ?_, hrel2.erasePend i⟩
          rw [projAm_append, c2AmRun_append, hrun2,
            projAm_single_other (by rfl) (fun h => hreq h.symm)]
          rfl
        · intro h
          have h2 := hrel.armPhase hcur (Or.inl h)
          rw [hb3] at h2
          simp at h2
        · intro h
          have h2 := hrel.armPhase hcur (Or.inr h)
          rw [hb3] at h2
          simp at h2
        · intro hex
          obtain ⟨tgt, hm2⟩ := hex
          exact hrel.hlAp hcur ⟨tgt, mem_eraseIdx hm2⟩
    · rw [if_pos (by simpa using hcur)]
      intro r
      obtain ⟨a, hrun, hrel⟩ := hInv r
      exact ⟨a, by rw [List.append_nil]; exact hrun, hrel.erasePend i⟩

/-- Resuming a highlight-delay suspension preserves the run invariant. -/
theorem highlightDone_inv {i rid : Nat} {tgt : DomTarget} {execError : Option String}
    {s : EngineSt} {tr : List VPEvent} (hInv : EngineInv s tr)
    (hi : s.pending[i]? = some (.highlight rid tgt)) :
    EngineInv
      (highlightResume rid tgt execError { s with pending := s.pending.eraseIdx i }).1
      (tr ++
        (highlightResume rid tgt execError
          { s with pending := s.pending.eraseIdx i }).2) := by
  have hmem : PendingCont.highlight rid tgt ∈ s.pending := mem_of_getElem? hi
  unfold highlightResume
  by_cases hcur : s.currentRequestId = some rid
  · rw [if_pos hcur, returnToListening_eq]
    have hinv2 : ∀ r, projAm r
        (match execError with
          | some msg => [VPEvent.EngineError ({ s with
              pending := s.pending.eraseIdx i } : EngineSt).currentRequestId
              .EXECUTION_FAILED msg]
          | none => []) = [] := by
      intro r
      rcases execError with _ | msg <;> simp [projAm, List.filter, lifecycleReqId]
    intro r
    by_cases hreq : r = rid
    · subst hreq
      obtain ⟨a, hrun, hrel⟩ := hInv r
      have hae : a.ae = false := hrel.aeFalse hcur
      have hap : a.ap = true := hrel.hlAp hcur ⟨tgt, hmem⟩
      refine ⟨{ a with ae := true }, ?_, ?_⟩
      · rw [projAm_append, c2AmRun_append, hrun, projAm_append, hinv2 r,
          List.append_nil, projAm_single_self (by rfl)]
        simp [c2AmRun, c2AmStep, hae, hap]
      · exact ReqRel.notCurrent (hrel.curLe hcur) (by simp)
          (le_trans (count_eraseIdx_le s.pending i _) hrel.asrCount)
    · obtain ⟨a, hrun, hrel⟩ := hInv r
      refine ⟨a, ?_, ?_⟩
      · rw [projAm_append, c2AmRun_append, hrun, projAm_append, hinv2 r,
          List.append_nil, projAm_single_other (by rfl) (fun h => hreq h.symm)]
        rfl
      · exact (hrel.erasePend i).reestablish (le_refl _) (fun h => h) (by simp)
          (fun h => h) (fun h => h) (fun c hc => Or.inl hc) (le_refl _)
  · rw [if_neg hcur, returnToListening_eq]
    exact EngineInv.invis hInv (fun r => rfl)
      (fun r a hrel => (hrel.erasePend i).reestablish (le_refl _) (fun h => h) (by simp)
        (fun h => h) (fun h => h) (fun c hc => Or.inl hc) (le_refl _))

/-- Every engine transition preserves the run invariant. -/
theorem engineStep_inv {s : EngineSt} {tr : List VPEvent} (hInv : EngineInv s tr) :
    ∀ inp, EngineInv (engineStep s inp).1 (tr ++ (engineStep s inp).2)
  | .startListening => startListening_inv hInv
  | .stopListening => stopListening_inv hInv
  | .cancel => cancelApi_inv hInv
  | .keyword k conf dom => by
    dsimp only [engineStep]
    split
    · exact handleKeyword_inv hInv
    · exact hInv.extendNil
  | .triggerOpen dom => by
    dsimp only [engineStep]
    split
    · exact handleKeyword_inv hInv
    · exact hInv.extendNil
  | .vadSpeechStart => hInv.extendNil
  | .vadSpeechEnd => by
    dsimp only [engineStep]
    rcases hv : s.vadArmed with _ | rid
    · simp only [hv]
      exact hInv.extendNil
    · simp only [hv]
      exact fc_flow_inv hInv (Or.inl rfl) (Or.inl hv)
  | .captureTimeoutFire => by
    dsimp only [engineStep]
    rcases hv : s.captureTimeout with _ | rid
    · simp only [hv]
      exact hInv.extendNil
    · simp only [hv]
      exact fc_flow_inv hInv (Or.inr rfl) (Or.inr hv)
  | .asrDone i result => by
    dsimp only [engineStep]
    rcases hp : s.pending[i]? with _ | c
    · simp only [hp]
      exact hInv.extendNil
    · rcases c with rid | ⟨rid, tgt⟩
      · simp only [hp]
        exact asrDone_inv hInv hp
      · simp only [hp]
        exact hInv.extendNil
  | .highlightDone i execError => by
    dsimp only [engineStep]
    rcases hp : s.pending[i]? with _ | c
    · simp only [hp]
      exact hInv.extendNil
    · rcases c with rid | ⟨rid, tgt⟩
      · simp only [hp]
        exact hInv.extendNil
      · simp only [hp]
        exact highlightDone_inv hInv hp
  | .simulateTranscript t dom => simulate_inv hInv
  | .selectTarget targetId => selectTarget_inv hInv
  | .destroy => destroy_inv hInv

/-- The run invariant holds along any input sequence. -/
theorem engineRunFrom_inv {s : EngineSt} {tr : List VPEvent} (hInv : EngineInv s tr) :
    ∀ ins, EngineInv (engineRunFrom s ins).1 (tr ++ (engineRunFrom s ins).2)
  | [] => hInv.extendNil
  | inp :: ins => by
    have h2 := engineRunFrom_inv (engineStep_inv hInv inp) ins
    dsimp only [engineRunFrom]
    rw [← List.append_assoc]
    exact h2

/-- The initial engine state satisfies the run invariant on the empty
trace. -/
theorem engineInit_inv (cfg : VoicePageConfig) : EngineInv (initialEngine cfg) [] := by
  intro r
  refine ⟨amInit, rfl, ?_, ?_, ?_, ?_, ?_, ?_, ?_, ?_, ?_, ?_, ?_, ?_⟩
  · exact fun _ => rfl
  · exact fun h => absurd h (by simp [initialEngine])
  · exact fun h => absurd h (by simp [initialEngine])
  · exact fun h => absurd h (by simp [initialEngine])
  · exact fun c hc _ => absurd hc (by simp [initialEngine])
  · exact fun h => absurd h (by simp [initialEngine])
  · exact fun h _ => absurd h (by simp [initialEngine])
  · exact fun h _ => absurd h (by simp [initialEngine])
  · exact fun h _ => absurd h (by simp [initialEngine])
  · exact fun h _ => absurd h (by simp [initialEngine])
  · exact fun h _ => absurd h (by simp [initialEngine])
  · simp [initialEngine]

/-- Claim C2 (amended): for every request id, along every run of the
engine from the initial state, the subsequence of emitted lifecycle
events carrying that id is accepted by the amended automaton — i.e. it
is a prefix of the language `(CaptureStarted TargetIndexBuilt
(CaptureEnded(stop|cancel) | CaptureEnded(vad|timeout)
TranscriptionStarted (CaptureEnded(stop|cancel) | TranscriptReady ...))
| TargetIndexBuilt TranscriptReady ...)` with `ActionProposed`
insertable while live and a final `ActionExecuted` only after an
`ActionProposed`; `ConfirmationRequired` never occurs.  (The claim's
original expression is refuted by
`engine_request_regex_counterexample`.) -/
theorem engine_request_lifecycle_regular (cfg : VoicePageConfig) (ins : List EngineIn)
    (r : Nat) :
    (c2AmRun amInit (projAm r (engineRun cfg ins).2)).isSome = true := by
  have h := engineRunFrom_inv (engineInit_inv cfg) ins
  rw [List.nil_append] at h
  obtain ⟨a, hrun, _⟩ := h r
  unfold engineRun
  rw [hrun]
  rfl

end VoicePage
